import Mathlib

set_option maxRecDepth 20000

/-!
Verification of the address-parsing pipeline of the repository
priyanshi0609/Indian-Address-Parser (Python).

The Python sources are shallowly embedded: strings are lists of
characters, Python dictionaries are association lists, Optional
fields are Option values, and the regular expressions used by the
extractors are transcribed as backtracking scanners with the same
leftmost-match, alternation-order and greedy/lazy semantics.
Character classes model the ASCII behaviour of the Python predicates
(str.lower, str.title, the regex classes \w, \s, \d); the pipeline is
only exercised on ASCII address text.
-/

/-- Characters matched by the Python regex class \s (ASCII range). -/
def isWsC (c : Char) : Bool :=
  c = ' ' || c = '\t' || c = '\n' || c = '\r' || c.toNat = 11 || c.toNat = 12

/-- The 26 uppercase-to-lowercase ASCII letter pairs, used to model str.lower. -/
def lowPairs : List (Char × Char) :=
  [('A', 'a'), ('B', 'b'), ('C', 'c'), ('D', 'd'), ('E', 'e'), ('F', 'f'),
   ('G', 'g'), ('H', 'h'), ('I', 'i'), ('J', 'j'), ('K', 'k'), ('L', 'l'),
   ('M', 'm'), ('N', 'n'), ('O', 'o'), ('P', 'p'), ('Q', 'q'), ('R', 'r'),
   ('S', 's'), ('T', 't'), ('U', 'u'), ('V', 'v'), ('W', 'w'), ('X', 'x'),
   ('Y', 'y'), ('Z', 'z')]

/-- The lowercase-to-uppercase ASCII letter pairs, used to model str.title. -/
def upPairs : List (Char × Char) := lowPairs.map (fun p => (p.2, p.1))

/-- Association-list lookup, modelling Python dict indexing (keys are unique). -/
def assocLookup {α : Type} : List (List Char × α) → List Char → Option α
  | [], _ => none
  | (k, v) :: t, key => if k = key then some v else assocLookup t key

/-- Character-keyed association lookup for the case tables. -/
def charLookup : List (Char × Char) → Char → Option Char
  | [], _ => none
  | (k, v) :: t, key => if k = key then some v else charLookup t key

/-- ASCII lowercasing of one character (Python str.lower). -/
def pyLowerChar (c : Char) : Char := (charLookup lowPairs c).getD c

/-- ASCII uppercasing of one character (Python str.upper). -/
def pyUpperChar (c : Char) : Char := (charLookup upPairs c).getD c

/-- ASCII letter test (Python regex [a-zA-Z], str.isalpha). -/
def isAlphaC (c : Char) : Bool :=
  (charLookup lowPairs c).isSome || (charLookup upPairs c).isSome

/-- ASCII digit test (Python regex \d, str.isdigit). -/
def isDigitC (c : Char) : Bool := 48 ≤ c.toNat && c.toNat ≤ 57

/-- Characters matched by the Python regex class \w (ASCII range). -/
def isWordChar (c : Char) : Bool := isAlphaC c || isDigitC c || c = '_'

/-- Characters kept by the first substitution of normalize_text,
the class [\w\s,./\-()] of utils.py line 49. -/
def allowedChar (c : Char) : Bool :=
  isWordChar c || isWsC c || c = ',' || c = '.' || c = '/' || c = '-' || c = '(' || c = ')'

/-- List of characters of a string literal. -/
def str (s : String) : List Char := s.data

/-- Python str.lower over a whole string (ASCII model). -/
def pyLower (l : List Char) : List Char := l.map pyLowerChar

/-- Python str.strip: drop leading and trailing whitespace. -/
def pyStrip (l : List Char) : List Char :=
  ((l.dropWhile isWsC).reverse.dropWhile isWsC).reverse

/-- Worker for pyTitle; the flag records whether the previous character
was an ASCII letter (cased), as in Python str.title. -/
def titleAux : Bool → List Char → List Char
  | _, [] => []
  | prev, c :: cs =>
    if isAlphaC c then (if prev then pyLowerChar c else pyUpperChar c) :: titleAux true cs
    else c :: titleAux false cs

/-- Python str.title (ASCII model). -/
def pyTitle (l : List Char) : List Char := titleAux false l

/-- Worker for splitP, accumulating the current token in reverse. -/
def splitAux (p : Char → Bool) : List Char → List Char → List (List Char)
  | acc, [] => if acc = [] then [] else [acc.reverse]
  | acc, c :: cs =>
    if p c then (if acc = [] then splitAux p [] cs else acc.reverse :: splitAux p [] cs)
    else splitAux p (c :: acc) cs

/-- Split on runs of separator characters, dropping empty tokens.
With isWsC this is Python str.split(); with other predicates it models
re.split on a one-class-plus pattern followed by discarding falsy tokens. -/
def splitP (p : Char → Bool) (l : List Char) : List (List Char) := splitAux p [] l

/-- Python ' '.join. -/
def joinSpace : List (List Char) → List Char
  | [] => []
  | [e] => e
  | e :: es => e ++ ' ' :: joinSpace es

/-- Worker for collapseWs; the flag records whether the previous character
was whitespace (already replaced by one space). -/
def collapseWsAux : Bool → List Char → List Char
  | _, [] => []
  | prev, c :: cs =>
    if isWsC c then (if prev then collapseWsAux true cs else ' ' :: collapseWsAux true cs)
    else c :: collapseWsAux false cs

/-- The substitution re.sub of one space for every whitespace run. -/
def collapseWs (l : List Char) : List Char := collapseWsAux false l

/-- Worker for collapseCommas; the flag records whether the previous
character was a comma. -/
def collapseCommasAux : Bool → List Char → List Char
  | _, [] => []
  | prev, c :: cs =>
    if c = ',' then (if prev then collapseCommasAux true cs else ',' :: collapseCommasAux true cs)
    else c :: collapseCommasAux false cs

/-- The substitution re.sub of one comma for every comma run. -/
def collapseCommas (l : List Char) : List Char := collapseCommasAux false l

/-- Python str.replace pat -> repl, all non-overlapping occurrences left
to right. In the pipeline the pattern is always nonempty (guarded by
Python truthiness), so the empty-pattern behaviour is never exercised. -/
def replaceAll (pat repl : List Char) : List Char → List Char
  | [] => []
  | c :: cs =>
    if pat ≠ [] ∧ pat.isPrefixOf (c :: cs) then repl ++ replaceAll pat repl (cs.drop (pat.length - 1))
    else c :: replaceAll pat repl cs
termination_by l => l.length
decreasing_by
  · simp only [List.length_drop, List.length_cons]
    omega
  · simp

/-- The abbreviation lexicon of utils.get_abbreviations (dict literal,
in source order). -/
def get_abbreviations : List (List Char × List Char) :=
  [(str "s/o", str "son of"), (str "w/o", str "wife of"), (str "c/o", str "care of"),
   (str "d/o", str "daughter of"), (str "rd", str "road"), (str "st", str "street"),
   (str "sec", str "sector"), (str "ph", str "phase"), (str "h.no", str "house number"),
   (str "hno", str "house number"), (str "vill", str "village"), (str "vlg", str "village"),
   (str "po", str "post office"), (str "dist", str "district")]

/-- The per-token lookup key of normalize_text: the token with every
non-word character removed (re.sub of empty for [^\w]). -/
def pyClean (w : List Char) : List Char := w.filter isWordChar

/-- One step of the abbreviation expansion of normalize_text: replace the whole
token by its expansion when the cleaned token is a lexicon key. -/
def expandToken (lex : List (List Char × List Char)) (w : List Char) : List Char :=
  match assocLookup lex (pyClean w) with
  | some v => v
  | none => w

/-- utils.normalize_text: lowercase and strip, replace disallowed
characters by spaces, collapse comma runs, collapse whitespace runs,
split on whitespace, expand abbreviations per token, rejoin and strip. -/
def normalize_text (text : List Char) (lex : List (List Char × List Char)) : List Char :=
  if text = [] then []
  else
    let t1 := pyStrip (pyLower text)
    let t2 := t1.map (fun c => if allowedChar c then c else ' ')
    let t3 := collapseCommas t2
    let t4 := collapseWs t3
    let ws := splitP isWsC t4
    let ex := ws.map (expandToken lex)
    pyStrip (joinSpace ex)

example : normalize_text (str "  H.No 12,, Rd x ") get_abbreviations
    = str "house number 12, road x" := by decide

example : normalize_text (str "s/o Ram") get_abbreviations = str "s/o ram" := by decide

/-- models.ParsedAddress: the output record. String fields are optional;
confidence_score and validation_errors default to 0.0 and []. -/
structure ParsedAddress where
  care_of : Option (List Char) := none
  house_number : Option (List Char) := none
  building_name : Option (List Char) := none
  street : Option (List Char) := none
  locality : Option (List Char) := none
  landmark : Option (List Char) := none
  city : Option (List Char) := none
  village : Option (List Char) := none
  district : Option (List Char) := none
  subdistrict : Option (List Char) := none
  state : Option (List Char) := none
  pincode : Option (List Char) := none
  confidence_score : ℚ := 0
  validation_errors : List (List Char) := []
deriving DecidableEq

/-- The record built by the ParsedAddress() default constructor. -/
def emptyParsed : ParsedAddress := {}

/-- Python truthiness of an Optional[str]: None and the empty string are falsy. -/
def truthyOpt : Option (List Char) → Bool
  | none => false
  | some s => s ≠ []

/-- Case-insensitive literal match at the head of the text
(regex literals under re.IGNORECASE, ASCII model). -/
def hasLeadCI : List Char → List Char → Bool
  | [], _ => true
  | _ :: _, [] => false
  | m :: ms, c :: cs => pyLowerChar c = m && hasLeadCI ms cs

/-- Lazy-group scanner: acc holds the reversed capture so far (at least one
character); stop as soon as the terminator matches, where the terminator is
a comma, end of string, or (when wsT) a whitespace run. -/
def lazyGo (cls : Char → Bool) (wsT : Bool) : List Char → List Char → Option (List Char)
  | acc, [] => some acc.reverse
  | acc, c :: cs =>
    if c = ',' || (wsT && isWsC c) then some acc.reverse
    else if cls c then lazyGo cls wsT (c :: acc) cs
    else none

/-- A lazy one-or-more capture of class characters followed by the
terminator, as in the patterns (cls+?)(?:,|\s+|$) and (cls+?)(?:,|$). -/
def lazyCap (cls : Char → Bool) (wsT : Bool) : List Char → Option (List Char)
  | [] => none
  | c :: cs => if cls c then lazyGo cls wsT [c] cs else none

/-- Backtracking over the number of whitespace characters consumed by the
separator: k runs from the full run length down to 1 (for \s+) or 0
(for \s*), greedy first, as the regex engine does. -/
def sepDesc (cls : Char → Bool) (wsT : Bool) (rest : List Char) : Nat → Bool → Option (List Char)
  | 0, plus => if plus then none else lazyCap cls wsT rest
  | k + 1, plus =>
    match lazyCap cls wsT (rest.drop (k + 1)) with
    | some cap => some cap
    | none => sepDesc cls wsT rest k plus

/-- Try the marker alternatives of an alternation in source order at a fixed
position; on a literal hit, run the separator and the lazy capture, and on
their failure fall through to the next alternative (regex backtracking). -/
def tryAlts (cls : Char → Bool) (wsT sepPlus : Bool) (t : List Char) :
    List (List Char) → Option (List Char)
  | [] => none
  | m :: ms =>
    if hasLeadCI m t then
      let rest := t.drop m.length
      match sepDesc cls wsT rest (rest.takeWhile isWsC).length sepPlus with
      | some cap => some cap
      | none => tryAlts cls wsT sepPlus t ms
    else tryAlts cls wsT sepPlus t ms

/-- Leftmost-match scan of re.search: try the matcher at every position,
left to right. The flag tracks whether the previous character is a word
character, so that matchers requiring a leading word boundary are skipped
where the boundary fails. -/
def scanM {α : Type} (needB : Bool) (m : List Char → Option α) : Bool → List Char → Option α
  | _, [] => none
  | prevW, c :: cs =>
    match (if needB && prevW then none else m (c :: cs)) with
    | some r => some r
    | none => scanM needB m (isWordChar c) cs

/-- A full marker-separator-capture pattern searched over the text:
the shape (?:alt1|alt2|...)SEP(cls+?)(?:,[|\s+]|$), optionally
preceded by a word boundary. -/
def searchA (needB : Bool) (alts : List (List Char)) (sepPlus : Bool)
    (cls : Char → Bool) (wsT : Bool) (t : List Char) : Option (List Char) :=
  scanM needB (fun u => tryAlts cls wsT sepPlus u alts) false t

/-- Greedy one-or-more capture of class characters (a trailing (cls+)
group with nothing after it). -/
def greedyCapNE (cls : Char → Bool) (t : List Char) : Option (List Char) :=
  match t.takeWhile cls with
  | [] => none
  | w => some w

/-- Remainders after dropping k+0, ..., 1 whitespace characters, greedy
first; used for a \s+ item inside a backtracking prefix. -/
def dropsDescP (t : List Char) : Nat → List (List Char)
  | 0 => []
  | k + 1 => t.drop (k + 1) :: dropsDescP t k

/-- Remainder candidates for a \s* item, greedy first (down to dropping
nothing). -/
def wsStarR (t : List Char) : List (List Char) :=
  dropsDescP t (t.takeWhile isWsC).length ++ [t]

/-- Remainder candidates for a \s+ item, greedy first (at least one
whitespace character). -/
def wsPlusR (t : List Char) : List (List Char) :=
  dropsDescP t (t.takeWhile isWsC).length

/-- Remainder candidates for a case-insensitive literal. -/
def litR (m : List Char) (t : List Char) : List (List Char) :=
  if hasLeadCI m t then [t.drop m.length] else []

/-- Remainder candidates for an optional literal dot, greedy (with the
dot first), as in the regex item dot-question. -/
def optDotR (t : List Char) : List (List Char) :=
  match t with
  | c :: cs => if c = '.' then [cs, c :: cs] else [c :: cs]
  | [] => [[]]

/-- Remainder candidates for an optional one-character class, greedy. -/
def optClsR (p : Char → Bool) (t : List Char) : List (List Char) :=
  match t with
  | c :: cs => if p c then [cs, c :: cs] else [c :: cs]
  | [] => [[]]

/-- First remainder on which the final greedy capture succeeds, in
backtracking priority order. -/
def firstSomeCap (cls : Char → Bool) : List (List Char) → Option (List Char)
  | [] => none
  | t :: ts =>
    match greedyCapNE cls t with
    | some w => some w
    | none => firstSomeCap cls ts

/-- Characters of the regex class [a-z\s] under re.IGNORECASE. -/
def clsAlWs (c : Char) : Bool := isAlphaC c || isWsC c

/-- Characters of the regex class [a-z0-9\s\.] under re.IGNORECASE. -/
def clsLm (c : Char) : Bool := isAlphaC c || isDigitC c || isWsC c || c = '.'

/-- Characters of the regex class [a-z0-9\s] under re.IGNORECASE. -/
def clsLmAP (c : Char) : Bool := isAlphaC c || isDigitC c || isWsC c

/-- Characters of the regex class [a-z0-9/\-] under re.IGNORECASE. -/
def clsHouse (c : Char) : Bool := isAlphaC c || isDigitC c || c = '/' || c = '-'

/-- Characters of the regex class [0-9a-z\-] under re.IGNORECASE. -/
def clsSector (c : Char) : Bool := isDigitC c || isAlphaC c || c = '-'

/-- Characters of the optional regex class [:\-]. -/
def clsColonDash (c : Char) : Bool := c = ':' || c = '-'

/-- First pattern of a pattern list that matches the text, as the Python
for-pattern-in-patterns loops of the extractors. -/
def firstSearch : List (List Char → Option (List Char)) → List Char → Option (List Char)
  | [], _ => none
  | p :: ps, t =>
    match p t with
    | some cap => some cap
    | none => firstSearch ps t

/-- Match of the pattern backslash-b d6 backslash-b at one position: six
digit characters preceded (by scanM) and followed by a word boundary. -/
def pinAt (l : List Char) : Option (List Char) :=
  let p := l.take 6
  if p.length = 6 && p.all isDigitC then
    match l.drop 6 with
    | [] => some p
    | c :: _ => if isWordChar c then none else some p
  else none

/-- extract_pincode of parser.py: first 6-digit run bounded by word
boundaries. -/
def extract_pincode (t : List Char) : Option (List Char) := scanM true pinAt false t

/-- extract_care_of of parser.py: the four relationship patterns in order;
the captured run of [a-z\s] characters is stripped and title-cased. -/
def extract_care_of (t : List Char) : Option (List Char) :=
  (firstSearch
    [searchA false [str "s/o", str "son of"] true clsAlWs true,
     searchA false [str "w/o", str "wife of"] true clsAlWs true,
     searchA false [str "c/o", str "care of"] true clsAlWs true,
     searchA false [str "d/o", str "daughter of"] true clsAlWs true] t).map
    (fun cap => pyTitle (pyStrip cap))

/-- Backtracking remainders of the suffix item sequence of the marker-based
house patterns of parser.py. -/
def hSuffix (t : List Char) : List (List Char) :=
  (wsStarR t).flatMap (fun a => (optClsR clsColonDash a).flatMap wsStarR)

/-- Backtracking remainders of the prefix alternation of house pattern 1 of
parser.py, the shape h dot-opt ws-star no dot-opt, or house ws-plus no
dot-opt, or house ws-plus number. -/
def h1Pre (t : List Char) : List (List Char) :=
  ((litR (str "h") t).flatMap (fun a => (optDotR a).flatMap (fun b =>
     (wsStarR b).flatMap (fun c => (litR (str "no") c).flatMap optDotR)))) ++
  ((litR (str "house") t).flatMap (fun a => (wsPlusR a).flatMap (fun b =>
     (litR (str "no") b).flatMap optDotR))) ++
  ((litR (str "house") t).flatMap (fun a => (wsPlusR a).flatMap (litR (str "number"))))

/-- Backtracking remainders of the marker alternation of house patterns 2
and 3 of parser.py (plot and door). -/
def markNoPre (m : List Char) (t : List Char) : List (List Char) :=
  ((litR m t).flatMap (fun a => (wsPlusR a).flatMap (fun b =>
     (litR (str "no") b).flatMap optDotR))) ++
  ((litR m t).flatMap (fun a => (wsPlusR a).flatMap (litR (str "number"))))

/-- Backtracking remainders of the marker alternation of house pattern 4
of parser.py, the shape no dot-opt or number. -/
def h4Pre (t : List Char) : List (List Char) :=
  ((litR (str "no") t).flatMap optDotR) ++ litR (str "number") t

/-- House pattern 1 matcher at one position. -/
def h1At (t : List Char) : Option (List Char) :=
  firstSomeCap clsHouse ((h1Pre t).flatMap hSuffix)

/-- House pattern 2 matcher at one position. -/
def h2At (t : List Char) : Option (List Char) :=
  firstSomeCap clsHouse ((markNoPre (str "plot") t).flatMap hSuffix)

/-- House pattern 3 matcher at one position. -/
def h3At (t : List Char) : Option (List Char) :=
  firstSomeCap clsHouse ((markNoPre (str "door") t).flatMap hSuffix)

/-- House pattern 4 matcher at one position (this one carries a leading
word boundary and has a plain ws-plus separator). -/
def h4At (t : List Char) : Option (List Char) :=
  firstSomeCap clsHouse ((h4Pre t).flatMap wsPlusR)

/-- extract_house_number of parser.py: the four house patterns in order;
the capture is stripped and its non-word non-slash non-hyphen characters
removed (which may leave the empty string). -/
def extract_house_number (t : List Char) : Option (List Char) :=
  (firstSearch
    [fun u => scanM false h1At false u,
     fun u => scanM false h2At false u,
     fun u => scanM false h3At false u,
     fun u => scanM true h4At false u] t).map
    (fun cap => (pyStrip cap).filter (fun c => isWordChar c || c = '/' || c = '-'))

/-- extract_landmark of parser.py: single proximity pattern; the capture is
stripped and title-cased (no length check in this variant). -/
def extract_landmark (t : List Char) : Option (List Char) :=
  (searchA false
    [str "near", str "opp.", str "opp", str "opposite", str "beside",
     str "next to", str "close to"] true clsLm true t).map
    (fun cap => pyTitle (pyStrip cap))

/-- Sector pattern matcher at one position: the alternation sector or sec
dot-opt, then ws-star, then a greedy [0-9a-z\-]+ capture. -/
def sectorAt (t : List Char) : Option (List Char) :=
  firstSomeCap clsSector
    ((litR (str "sector") t ++ (litR (str "sec") t).flatMap optDotR).flatMap wsStarR)

/-- extract_locality_info of parser.py: the sector pattern yields the label
Sector plus the raw capture; otherwise the street-marker pattern yields the
stripped title-cased capture; the street component is always None. -/
def extract_locality_info (t : List Char) : Option (List Char) × Option (List Char) :=
  match scanM false sectorAt false t with
  | some cap => (some (str "Sector " ++ cap), none)
  | none =>
    match searchA true
      [str "street", str "st.", str "st", str "road", str "rd.", str "rd",
       str "lane", str "ln.", str "ln", str "colony", str "col.", str "col",
       str "extension", str "extn.", str "extn"] true clsLm true t with
    | some cap => (some (pyTitle (pyStrip cap)), none)
    | none => (none, none)

/-- extract_village_info of parser.py. The second pattern captures its
marker as group 1 and the name as group 2; group 2 always holds at least
one character, hence is truthy and is the value returned. -/
def extract_village_info (t : List Char) : Option (List Char) :=
  match searchA false [str "village", str "vill.", str "vill"] true clsAlWs true t with
  | some cap => some (pyTitle (pyStrip cap))
  | none =>
    match searchA true [str "vill.", str "vill", str "vlg.", str "vlg"] false clsAlWs true t with
    | some cap => some (pyTitle (pyStrip cap))
    | none => none

/-- extract_district_info of parser.py; the subdistrict component is always
None. As with the village patterns, group 2 of the second pattern is
nonempty, hence truthy. -/
def extract_district_info (t : List Char) : Option (List Char) × Option (List Char) :=
  match searchA false [str "district", str "dist.", str "dist"] true clsAlWs true t with
  | some cap => (some (pyTitle (pyStrip cap)), none)
  | none =>
    match searchA true [str "dist.", str "dist"] false clsAlWs true t with
    | some cap => (some (pyTitle (pyStrip cap)), none)
    | none => (none, none)

/-- Greedy run of digits at the head of the text. -/
def takeDigits (t : List Char) : List Char := t.takeWhile isDigitC

/-- Candidates after an optional trailing letter of a group (letter taken
first, greedy), paired with the remaining text. -/
def trailCands (g : List Char) (rest : List Char) : List (List Char × List Char) :=
  match rest with
  | x :: xs => if isAlphaC x then [(g ++ [x], xs), (g, x :: xs)] else [(g, x :: xs)]
  | [] => [(g, [])]

/-- Candidates for the group letter-opt digits letter-opt of the advanced
house patterns, in backtracking priority order. -/
def candsG1 (t : List Char) : List (List Char × List Char) :=
  (match t with
   | c :: cs =>
     if isAlphaC c then
       match takeDigits cs with
       | [] => []
       | d => trailCands (c :: d) (cs.drop d.length)
     else []
   | [] => []) ++
  (match takeDigits t with
   | [] => []
   | d => trailCands d (t.drop d.length))

/-- Word-boundary test after a group: end of text or a non-word character. -/
def bAfter : List Char → Bool
  | [] => true
  | c :: _ => !isWordChar c

/-- Worker for advanced house pattern 1: after the first group, a
whitespace run, a digit run and a further whitespace run must follow; the
result is the two groups joined by one space. -/
def p1Go : List (List Char × List Char) → Option (List Char)
  | [] => none
  | (g1, rest) :: more =>
    if rest.takeWhile isWsC = [] then p1Go more
    else
      let r2 := rest.dropWhile isWsC
      match takeDigits r2 with
      | [] => p1Go more
      | d2 =>
        if (r2.drop d2.length).takeWhile isWsC = [] then p1Go more
        else some (g1 ++ ' ' :: d2)

/-- Advanced house pattern 1 matcher at one position. -/
def p1At (t : List Char) : Option (List Char) := p1Go (candsG1 t)

/-- Worker for advanced house pattern 2: a slash, a digit run and a word
boundary must follow the first group. -/
def p2Go : List (List Char × List Char) → Option (List Char)
  | [] => none
  | (g1, rest) :: more =>
    match rest with
    | '/' :: r2 =>
      (match takeDigits r2 with
       | [] => p2Go more
       | d2 => if bAfter (r2.drop d2.length) then some (g1 ++ '/' :: d2) else p2Go more)
    | _ => p2Go more

/-- Advanced house pattern 2 matcher at one position. -/
def p2At (t : List Char) : Option (List Char) := p2Go (candsG1 t)

/-- Worker for the tail of advanced house pattern 3: the candidates after
the optional second letter, looking for a word boundary. -/
def p3Go2 : List (List Char × List Char) → Option (List Char)
  | [] => none
  | (g, rest) :: more => if bAfter rest then some g else p3Go2 more

/-- Worker for advanced house pattern 3: hyphen-joined digit groups with
optional letters and a trailing word boundary. -/
def p3Go1 : List (List Char × List Char) → Option (List Char)
  | [] => none
  | (g1, rest) :: more =>
    match rest with
    | '-' :: r2 =>
      (match takeDigits r2 with
       | [] => p3Go1 more
       | d2 =>
         match p3Go2 (trailCands (g1 ++ '-' :: d2) (r2.drop d2.length)) with
         | some g => some g
         | none => p3Go1 more)
    | _ => p3Go1 more

/-- Advanced house pattern 3 matcher at one position; its group starts
with a digit, so only the digit-first candidates apply. -/
def p3At (t : List Char) : Option (List Char) :=
  match takeDigits t with
  | [] => none
  | d1 => p3Go1 (trailCands d1 (t.drop d1.length))

/-- Advanced house pattern 4 matcher at one position: one letter, a digit
run, a word boundary. -/
def p4At : List Char → Option (List Char)
  | [] => none
  | c :: cs =>
    if isAlphaC c then
      match takeDigits cs with
      | [] => none
      | d => if bAfter (cs.drop d.length) then some (c :: d) else none
    else none

/-- extract_house_number_advanced of parser.py: the four advanced patterns
in order, each requiring a leading word boundary; pattern 1 returns its two
groups joined by a space, the others their single group. -/
def extract_house_number_advanced (t : List Char) : Option (List Char) :=
  firstSearch
    [fun u => scanM true p1At false u,
     fun u => scanM true p2At false u,
     fun u => scanM true p3At false u,
     fun u => scanM true p4At false u] t

/-- Separator class of the patterns [,\n\s\.]+ (extract_city_state) and
[,\s\.]+ (extract_locality_advanced); the two coincide because the
newline is already whitespace. -/
def commaWsDot (c : Char) : Bool := c = ',' || isWsC c || c = '.'

/-- The filler-word list of extract_locality_advanced. -/
def locality_indicators : List (List Char) :=
  [str "extension", str "extn", str "colony", str "col", str "area",
   str "nagar", str "layout"]

/-- extract_locality_advanced of parser.py: remove the extracted house
number (lowercased) and pincode from the lowercased text, split on
commas, whitespace and periods, keep every nonempty token that is an
indicator word or not all digits (the loop skips falsy tokens, so the
empty end tokens that re.split keeps are dropped here), and title-case
the space-joined remainder. -/
def extract_locality_advanced (text : List Char) (hn pin : Option (List Char)) :
    Option (List Char) :=
  let t0 := pyLower text
  let t1 := match hn with
    | some h => if h = [] then t0 else replaceAll (pyLower h) [] t0
    | none => t0
  let t2 := match pin with
    | some p => if p = [] then t1 else replaceAll p [] t1
    | none => t1
  let words := splitP commaWsDot (pyStrip t2)
  let parts := words.filter
    (fun w => (!locality_indicators.contains w && !w.all isDigitC) || locality_indicators.contains w)
  if parts = [] then none else some (pyTitle (joinSpace parts))

/-- An entry of the city gazetteer built by data_loader.load_datasets. -/
structure CityEntry where
  district : List Char
  state : List Char
deriving DecidableEq

/-- An entry of the PIN index built by data_loader.load_datasets. -/
structure PinEntry where
  city : List Char
  district : List Char
  state : List Char
deriving DecidableEq

/-- The leading pincode test of extract_city_state and
validate_with_pincode: the pincode is truthy and is a key of the PIN
index, in which case the entry is returned. -/
def pinStage (pl : List (List Char × PinEntry)) : Option (List Char) → Option PinEntry
  | some p => if p = [] then none else assocLookup pl p
  | none => none

/-- The 3-word and 2-word window loop of extract_city_state: for i in
range(len(words) - 2), look up the windows starting at i; the loop body
runs only while at least three tokens remain. -/
def pairScan (cl : List (List Char × CityEntry)) :
    List (List Char) → Option (Option (List Char) × Option (List Char))
  | a :: b :: c :: rest =>
    match assocLookup cl (a ++ ' ' :: b ++ ' ' :: c) with
    | some e => some (some (pyTitle (a ++ ' ' :: b ++ ' ' :: c)), some e.state)
    | none =>
      match assocLookup cl (a ++ ' ' :: b) with
      | some e => some (some (pyTitle (a ++ ' ' :: b)), some e.state)
      | none => pairScan cl (b :: c :: rest)
  | _ => none

/-- The single-token loop of extract_city_state. -/
def singleScan (cl : List (List Char × CityEntry)) :
    List (List Char) → Option (Option (List Char) × Option (List Char))
  | [] => none
  | w :: ws =>
    match assocLookup cl w with
    | some e => some (some (pyTitle w), some e.state)
    | none => singleScan cl ws

/-- The text-based stages of extract_city_state: tokenize the lowercased
text on commas, whitespace and periods, then run the window loop and the
single-token loop. -/
def exactStage (cl : List (List Char × CityEntry)) (text : List Char) :
    Option (Option (List Char) × Option (List Char)) :=
  let words := splitP commaWsDot (pyLower text)
  match pairScan cl words with
  | some r => some r
  | none => singleScan cl words

/-- extract_city_state of parser.py: PIN lookup first, then the exact
gazetteer stages, else the all-None pair. -/
def extract_city_state (cl : List (List Char × CityEntry)) (pl : List (List Char × PinEntry))
    (text : List Char) (pincode : Option (List Char)) :
    Option (List Char) × Option (List Char) :=
  match pinStage pl pincode with
  | some e => (some e.city, some e.state)
  | none =>
    match exactStage cl text with
    | some r => r
    | none => (none, none)

/-- Python x or y with x an Optional[str] and y a str: the empty string is
falsy, so it is replaced just as None is. -/
def pyOrStr (o : Option (List Char)) (v : List Char) : Option (List Char) :=
  match o with
  | some s => if s = [] then some v else some s
  | none => some v

/-- validate_with_pincode of parser.py: when the pincode of the record is truthy
and a key of the PIN index, fill city, district and state with Python or. -/
def validate_with_pincode (pl : List (List Char × PinEntry)) (parsed : ParsedAddress) :
    ParsedAddress :=
  match parsed.pincode with
  | some p =>
    if p = [] then parsed
    else
      match assocLookup pl p with
      | some pd =>
        { parsed with
          city := pyOrStr parsed.city pd.city,
          district := pyOrStr parsed.district pd.district,
          state := pyOrStr parsed.state pd.state }
      | none => parsed
  | none => parsed

/-- parse_address of parser.py (IndianAddressParser.parse_address): the
lookup tables are the parameters the constructor loads from disk; the
input is None (pd.NA style absence is not produced by the API layer, the
Optional covers Python None) or a string, with falsy input giving the
default record. -/
def parse_address (cl : List (List Char × CityEntry)) (pl : List (List Char × PinEntry)) :
    Option (List Char) → ParsedAddress
  | none => emptyParsed
  | some a =>
    if a = [] then emptyParsed
    else
      let norm := normalize_text a get_abbreviations
      let pincode := extract_pincode norm
      let hn0 := extract_house_number norm
      let loc0 := extract_locality_info norm
      let dis := extract_district_info norm
      let cs := extract_city_state cl pl norm pincode
      let house_number := if truthyOpt hn0 then hn0 else extract_house_number_advanced norm
      let locality :=
        if truthyOpt loc0.1 then loc0.1 else extract_locality_advanced norm house_number pincode
      validate_with_pincode pl
        { care_of := extract_care_of norm,
          house_number := house_number,
          street := loc0.2,
          locality := locality,
          landmark := extract_landmark norm,
          village := extract_village_info norm,
          district := dis.1,
          subdistrict := dis.2,
          city := cs.1,
          state := cs.2,
          pincode := pincode }

/-- Post-processing of a landmark capture in address_parser.py: strip,
title-case, collapse whitespace, then discard results of length below 3
(the code keeps only len(landmark) > 2). -/
def mkLandmark (cap : List Char) : Option (List Char) :=
  let l := collapseWs (pyTitle (pyStrip cap))
  if 2 < l.length then some l else none

/-- The pattern loop of address_parser.py extract_landmark: the first
pattern with a match decides the result (a too-short capture returns None
from inside the loop without trying later patterns). -/
def apLmLoop : List (List Char → Option (List Char)) → List Char → Option (List Char)
  | [], _ => none
  | p :: ps, t =>
    match p t with
    | some cap => mkLandmark cap
    | none => apLmLoop ps t

namespace AP

/-- First landmark pattern of address_parser.py: the alternation near or
opp dot-opt or opposite, ws-plus, a lazy [a-z0-9\s] capture, terminated by
a comma or end of string only. -/
def searchLm1 (t : List Char) : Option (List Char) :=
  searchA false [str "near", str "opp.", str "opp", str "opposite"] true clsLmAP false t

/-- Second landmark pattern of address_parser.py: behind, beside or next
to, with the same capture shape. -/
def searchLm2 (t : List Char) : Option (List Char) :=
  searchA false [str "behind", str "beside", str "next to"] true clsLmAP false t

/-- extract_landmark of address_parser.py (the variant with the proximity
markers behind/beside/next to and the 3-character minimum). -/
def extract_landmark (t : List Char) : Option (List Char) :=
  apLmLoop [searchLm1, searchLm2] t

end AP

/-- Modelled from the spec: round to 2 decimal places (spec section 4.5,
final score rounded to 2 decimal places). The confidence scorer itself is
absent from src/; models.py only declares the confidence_score field. -/
def round2 (q : ℚ) : ℚ := (round (q * 100) : ℚ) / 100

/-- The diagnostic strings of the confidence scorer (spec section 4.5). -/
def pinMissingMsg : List Char := str "Pincode missing"

/-- Missing-city diagnostic of the confidence scorer. -/
def cityMissingMsg : List Char := str "City not detected"

/-- Missing-state diagnostic of the confidence scorer. -/
def stateMissingMsg : List Char := str "State not detected"

/-- Modelled from the spec: the confidence scorer of spec section 4.5,
absent from src/ (models.py declares confidence_score and
validation_errors only). Five equally weighted signals of 0.2 each: PIN,
city, state, house number, locality or street; diagnostics for missing
PIN, city and state in that order; final score rounded to 2 decimals. -/
def scoreRecord (r : ParsedAddress) : ℚ × List (List Char) :=
  let score :=
    (if r.pincode.isSome then (1 : ℚ) / 5 else 0) +
    (if r.city.isSome then (1 : ℚ) / 5 else 0) +
    (if r.state.isSome then (1 : ℚ) / 5 else 0) +
    (if r.house_number.isSome then (1 : ℚ) / 5 else 0) +
    (if r.locality.isSome || r.street.isSome then (1 : ℚ) / 5 else 0)
  let errs :=
    (if r.pincode = none then [pinMissingMsg] else []) ++
    (if r.city = none then [cityMissingMsg] else []) ++
    (if r.state = none then [stateMissingMsg] else [])
  (round2 score, errs)

/-- Number of present signals among the five scored ones. -/
def presentCount (r : ParsedAddress) : Nat :=
  (cond r.pincode.isSome 1 0) + (cond r.city.isSome 1 0) + (cond r.state.isSome 1 0) +
  (cond r.house_number.isSome 1 0) + (cond (r.locality.isSome || r.street.isSome) 1 0)

/-- One row update of the Levenshtein distance matrix: walk the second
word with the previous row, carrying the diagonal and left cells. -/
def rowGo (ca : Char) : List Char → List Nat → Nat → Nat → List Nat
  | [], _, _, _ => []
  | _ :: _, [], _, _ => []
  | cb :: bs, pj :: ps, diag, left =>
    let cur := if ca = cb then diag else 1 + min diag (min left pj)
    cur :: rowGo ca bs ps pj cur

/-- Next Levenshtein row for one character of the first word. -/
def nextRow (ca : Char) (b : List Char) (prev : List Nat) : List Nat :=
  match prev with
  | [] => []
  | p0 :: ps => (p0 + 1) :: rowGo ca b ps p0 (p0 + 1)

/-- Levenshtein edit distance, computed by dynamic programming rows. -/
def lev (a b : List Char) : Nat :=
  (a.foldl (fun row ca => nextRow ca b row) (List.range (b.length + 1))).getLastD 0

/-- Modelled from the spec: the edit-distance-based similarity of one
gazetteer key against one substring, scored 0 to 100 (spec section 4.3
item 3; the fuzzy-matching resolver variant is absent from src/, utils.py
imports rapidfuzz but no function of src/ calls it). -/
def editSim (key w : List Char) : Nat :=
  let m := max key.length w.length
  if m = 0 then 100 else (100 * (m - lev key w)) / m

/-- All contiguous substrings of the text. -/
def subSegs (l : List Char) : List (List Char) := l.tails.flatMap List.inits

/-- Modelled from the spec: the partial-substring similarity of a
gazetteer key against the full normalized text, the best edit similarity
over every contiguous substring of the text. -/
def simScore (key text : List Char) : Nat :=
  ((subSegs text).map (editSim key)).foldl max 0

/-- One step of scanning the gazetteer for the highest-scoring key; a
strictly greater score replaces the incumbent, so the first of equal
scorers is kept. -/
def bestStep (text : List Char) (acc : Option (List Char × CityEntry × Nat))
    (p : List Char × CityEntry) : Option (List Char × CityEntry × Nat) :=
  let s := simScore p.1 text
  match acc with
  | none => some (p.1, p.2, s)
  | some (k0, e0, s0) => if s0 < s then some (p.1, p.2, s) else some (k0, e0, s0)

/-- Modelled from the spec: score the full normalized text against every
gazetteer key and keep the highest scorer. -/
def bestMatch (cl : List (List Char × CityEntry)) (text : List Char) :
    Option (List Char × CityEntry × Nat) :=
  cl.foldl (bestStep text) none

/-- Modelled from the spec: the fuzzy gazetteer stage of spec section 4.3
item 3 with the fixed threshold 85; per the testable property of the spec, a
score of exactly 85 is accepted and a score of 84 is rejected, so the
cutoff test is score at least 85. -/
def fuzzyStage (cl : List (List Char × CityEntry)) (text : List Char) :
    Option (List Char) × Option (List Char) :=
  match bestMatch cl text with
  | some (k, e, s) => if 85 ≤ s then (some (pyTitle k), some e.state) else (none, none)
  | none => (none, none)

/-- Modelled from the spec: the full geo resolver of spec section 4.3 -
PIN authority, then the exact gazetteer stages as in src/parser.py's
extract_city_state, then the fuzzy stage absent from src/. -/
def extract_city_state_full (cl : List (List Char × CityEntry))
    (pl : List (List Char × PinEntry)) (text : List Char) (pincode : Option (List Char)) :
    Option (List Char) × Option (List Char) :=
  match pinStage pl pincode with
  | some e => (some e.city, some e.state)
  | none =>
    match exactStage cl text with
    | some r => r
    | none => fuzzyStage cl text

/-- A two-key gazetteer holding both a multi-word place name and its
single-word suffix. -/
def gazDelhi : List (List Char × CityEntry) :=
  [(str "new delhi", ⟨str "New Delhi", str "Delhi"⟩),
   (str "delhi", ⟨str "Delhi", str "Delhi"⟩)]

/-- A small PIN index with two entries. -/
def pinsDemo : List (List Char × PinEntry) :=
  [(str "110001", ⟨str "Delhi", str "Central Delhi", str "Delhi"⟩),
   (str "400001", ⟨str "Mumbai", str "Mumbai City", str "Maharashtra"⟩)]

/-- A record whose city was set to the empty string (non-null but falsy)
and whose pincode is a key of pinsDemo. -/
def recEmptyCity : ParsedAddress := { city := some [], pincode := some (str "110001") }

/-- A record with a populated city, an empty-string state and a null
district, with a pincode keyed in pinsDemo. -/
def recMixed : ParsedAddress :=
  { city := some (str "Pune"), state := some [], pincode := some (str "110001") }

/-- A one-key gazetteer whose key scores exactly 85 against the text
of fuzzyText85. -/
def gazFuzzy85 : List (List Char × CityEntry) :=
  [(str "abcdefg", ⟨str "D One", str "S One"⟩)]

/-- Text at edit distance 1 from the 7-character key of gazFuzzy85:
similarity 100 * 6 / 7 = 85. -/
def fuzzyText85 : List Char := str "abcdef"

/-- A one-key gazetteer whose key scores exactly 84 against the text
of fuzzyText84. -/
def gazFuzzy84 : List (List Char × CityEntry) :=
  [(str "abcdefghijklm", ⟨str "D Two", str "S Two"⟩)]

/-- Text at edit distance 2 from the 13-character key of gazFuzzy84:
similarity 100 * 11 / 13 = 84. -/
def fuzzyText84 : List Char := str "abcdefghijk"

/-- Comma test, used by the adjacency predicates. -/
def isComma (c : Char) : Bool := c = ','

/-- Head of the list does not satisfy p (vacuously true for the empty
list); applied to the reversed list it speaks about the last character. -/
def headNot (p : Char → Bool) : List Char → Bool
  | [] => true
  | c :: _ => !p c

/-- No two adjacent characters both satisfy p. -/
def noAdjP (p : Char → Bool) : List Char → Bool
  | [] => true
  | [_] => true
  | a :: b :: t => !(p a && p b) && noAdjP p (b :: t)

/-- Characters that survive one normalization pass unchanged: in the
allowed set and fixed under lowercasing. -/
def okChar (c : Char) : Bool := allowedChar c && decide (pyLowerChar c = c)

/-- okChar plus: any whitespace is exactly one space character. -/
def goodChar (c : Char) : Bool := okChar c && (!isWsC c || c = ' ')

/-- An element of the token list rejoined by normalize_text that one more
normalization pass maps to itself: nonempty, canonical characters, no
doubled commas or spaces, no whitespace at either end, whitespace-split
words that rejoin to the element and that the abbreviation expansion
leaves unchanged. -/
def ElemOK (e : List Char) : Prop :=
  e ≠ [] ∧ (∀ c ∈ e, goodChar c = true) ∧
  noAdjP isComma e = true ∧ noAdjP isWsC e = true ∧
  headNot isWsC e = true ∧ headNot isWsC e.reverse = true ∧
  splitP isWsC e ≠ [] ∧ joinSpace (splitP isWsC e) = e ∧
  (∀ u ∈ splitP isWsC e, expandToken get_abbreviations u = u)

/-- Boolean form of ElemOK, decidable on the concrete lexicon values. -/
def valueOK (v : List Char) : Bool :=
  !v.isEmpty && v.all goodChar &&
  noAdjP isComma v && noAdjP isWsC v &&
  headNot isWsC v && headNot isWsC v.reverse &&
  !(splitP isWsC v).isEmpty && decide (joinSpace (splitP isWsC v) = v) &&
  (splitP isWsC v).all (fun u => decide (expandToken get_abbreviations u = u))

/-- Frame lemma for validate_with_pincode: every field other than city,
district and state is unchanged. -/
theorem validate_with_pincode_frame (pl : List (List Char × PinEntry)) (r : ParsedAddress) :
    (validate_with_pincode pl r).care_of = r.care_of ∧
    (validate_with_pincode pl r).house_number = r.house_number ∧
    (validate_with_pincode pl r).building_name = r.building_name ∧
    (validate_with_pincode pl r).street = r.street ∧
    (validate_with_pincode pl r).locality = r.locality ∧
    (validate_with_pincode pl r).landmark = r.landmark ∧
    (validate_with_pincode pl r).village = r.village ∧
    (validate_with_pincode pl r).subdistrict = r.subdistrict ∧
    (validate_with_pincode pl r).pincode = r.pincode ∧
    (validate_with_pincode pl r).confidence_score = r.confidence_score ∧
    (validate_with_pincode pl r).validation_errors = r.validation_errors := by
  unfold validate_with_pincode
  rcases hr : r.pincode with _ | p
  · simp [hr]
  · by_cases hp : p = []
    · simp [hr, hp]
    · simp only [hr, hp, if_neg, ite_false]
      rcases assocLookup pl p with _ | pd <;> simp [hr]

/-- The street component of extract_locality_info is always None. -/
theorem extract_locality_info_street_none (t : List Char) :
    (extract_locality_info t).2 = none := by
  unfold extract_locality_info
  rcases scanM false sectorAt false t with _ | cap
  · rcases searchA true
      [str "street", str "st.", str "st", str "road", str "rd.", str "rd",
       str "lane", str "ln.", str "ln", str "colony", str "col.", str "col",
       str "extension", str "extn.", str "extn"] true clsLm true t with _ | cap2 <;> rfl
  · rfl

/-- The confidence_score of parse_address is always the default 0: no
pipeline stage of src/parser.py assigns it. -/
theorem parse_address_confidence_zero (cl : List (List Char × CityEntry))
    (pl : List (List Char × PinEntry)) (address : Option (List Char)) :
    (parse_address cl pl address).confidence_score = 0 := by
  rcases address with _ | a
  · rfl
  · by_cases h : a = []
    · simp [parse_address, h, emptyParsed]
    · simp only [parse_address, h, if_neg, ite_false]
      rw [(validate_with_pincode_frame _ _).2.2.2.2.2.2.2.2.2.1]

/-- C1: for every input, including None and the empty string, parse_address
is a total function (the embedding is a Lean function, so it terminates and
raises nothing) and the confidence_score of the returned record lies in
the interval from 0 to 1. -/
theorem C1_parse_total_confidence_in_range (cl : List (List Char × CityEntry))
    (pl : List (List Char × PinEntry)) (address : Option (List Char)) :
    0 ≤ (parse_address cl pl address).confidence_score ∧
    (parse_address cl pl address).confidence_score ≤ 1 := by
  rw [parse_address_confidence_zero]
  norm_num

/-- C9: parse_address never populates street or building_name:
extract_locality_info always returns None in the street position, no stage
assigns building_name, and validate_with_pincode touches neither. -/
theorem C9_street_building_always_none (cl : List (List Char × CityEntry))
    (pl : List (List Char × PinEntry)) (address : Option (List Char)) :
    (parse_address cl pl address).street = none ∧
    (parse_address cl pl address).building_name = none := by
  rcases address with _ | a
  · exact ⟨rfl, rfl⟩
  · by_cases h : a = []
    · simp [parse_address, h, emptyParsed]
    · simp only [parse_address, h, if_neg, ite_false]
      constructor
      · rw [(validate_with_pincode_frame _ _).2.2.2.1]
        exact extract_locality_info_street_none _
      · rw [(validate_with_pincode_frame _ _).2.2.1]

/-- Sum of the five 0.2 contributions equals 0.2 times the signal count. -/
theorem score_sum_formula (b1 b2 b3 b4 b5 : Bool) :
    (if b1 then (1 : ℚ) / 5 else 0) + (if b2 then (1 : ℚ) / 5 else 0) +
    (if b3 then (1 : ℚ) / 5 else 0) + (if b4 then (1 : ℚ) / 5 else 0) +
    (if b5 then (1 : ℚ) / 5 else 0) =
    ((cond b1 1 0 + cond b2 1 0 + cond b3 1 0 + cond b4 1 0 + cond b5 1 0 : ℕ) : ℚ) * (2 / 10) := by
  cases b1 <;> cases b2 <;> cases b3 <;> cases b4 <;> cases b5 <;> norm_num

/-- C2: the returned confidence score is 0.2 times the number of present
signals among pincode, city, state, house number and locality-or-street,
rounded to two decimals, and the diagnostics are present exactly for a
missing pincode, city and state, while the absence of the house number or
of the locality and street leaves the diagnostics unchanged. -/
theorem C2_score_and_diagnostics (r : ParsedAddress) :
    (scoreRecord r).1 = round2 ((presentCount r : ℚ) * (2 / 10)) ∧
    (pinMissingMsg ∈ (scoreRecord r).2 ↔ r.pincode = none) ∧
    (cityMissingMsg ∈ (scoreRecord r).2 ↔ r.city = none) ∧
    (stateMissingMsg ∈ (scoreRecord r).2 ↔ r.state = none) ∧
    (scoreRecord { r with house_number := none }).2 = (scoreRecord r).2 ∧
    (scoreRecord { r with locality := none, street := none }).2 = (scoreRecord r).2 := by
  refine ⟨?_, ?_, ?_, ?_, rfl, rfl⟩
  · show round2 _ = round2 _
    rw [score_sum_formula]
    rfl
  · show pinMissingMsg ∈
      ((if r.pincode = none then [pinMissingMsg] else []) ++
       (if r.city = none then [cityMissingMsg] else []) ++
       (if r.state = none then [stateMissingMsg] else [])) ↔ _
    rcases r.pincode with _ | p <;> rcases r.city with _ | c <;> rcases r.state with _ | s <;>
      simp <;> decide
  · show cityMissingMsg ∈
      ((if r.pincode = none then [pinMissingMsg] else []) ++
       (if r.city = none then [cityMissingMsg] else []) ++
       (if r.state = none then [stateMissingMsg] else [])) ↔ _
    rcases r.pincode with _ | p <;> rcases r.city with _ | c <;> rcases r.state with _ | s <;>
      simp <;> decide
  · show stateMissingMsg ∈
      ((if r.pincode = none then [pinMissingMsg] else []) ++
       (if r.city = none then [cityMissingMsg] else []) ++
       (if r.state = none then [stateMissingMsg] else [])) ↔ _
    rcases r.pincode with _ | p <;> rcases r.city with _ | c <;> rcases r.state with _ | s <;>
      simp <;> decide

/-- A successful scan comes from a successful position match. -/
theorem scanM_some {α : Type} (needB : Bool) (m : List Char → Option α) :
    ∀ (t : List Char) (b : Bool) (r : α), scanM needB m b t = some r → ∃ u, m u = some r := by
  intro t
  induction t with
  | nil => intro b r h; simp [scanM] at h
  | cons c cs ih =>
    intro b r h
    unfold scanM at h
    rcases hm : (if needB && b then none else m (c :: cs)) with _ | v
    · rw [hm] at h
      exact ih _ _ h
    · rw [hm] at h
      cases h
      by_cases hb : (needB && b) = true
      · rw [if_pos hb] at hm
        cases hm
      · rw [if_neg hb] at hm
        exact ⟨c :: cs, hm⟩

/-- A position match of the pincode pattern yields exactly six characters. -/
theorem pinAt_length (u p : List Char) : pinAt u = some p → p.length = 6 := by
  unfold pinAt
  by_cases h6 : ((u.take 6).length = 6 && (u.take 6).all isDigitC) = true
  · rw [if_pos h6]
    have hlen : (u.take 6).length = 6 := by
      simp only [Bool.and_eq_true, decide_eq_true_eq] at h6
      exact h6.1
    rcases hd : u.drop 6 with _ | ⟨d, ds⟩
    · intro h
      cases h
      exact hlen
    · intro h
      by_cases hw : isWordChar d = true
      · simp [hw] at h
      · simp [hw] at h
        exact h ▸ hlen
  · rw [if_neg h6]
    intro h
    cases h

/-- An extracted pincode has exactly six characters. -/
theorem extract_pincode_length (t p : List Char) (h : extract_pincode t = some p) :
    p.length = 6 := by
  obtain ⟨u, hu⟩ := scanM_some true pinAt t false p h
  exact pinAt_length u p hu

/-- C4: whenever the extracted pincode is a key of the PIN index,
extract_city_state returns the city and state of that entry at once, for every
text and every gazetteer: the text-based stages are never consulted. -/
theorem C4_pin_priority (cl : List (List Char × CityEntry)) (pl : List (List Char × PinEntry))
    (src text p : List Char) (e : PinEntry)
    (hp : extract_pincode src = some p) (hl : assocLookup pl p = some e) :
    extract_city_state cl pl text (some p) = (some e.city, some e.state) := by
  have hne : p ≠ [] := by
    intro h0
    have := extract_pincode_length src p hp
    rw [h0] at this
    simp at this
  simp only [extract_city_state, pinStage]
  rw [if_neg hne, hl]

/-- Witness for C4 at a concrete input: the PIN 400001 maps to Mumbai, the
text holds the gazetteer token delhi, and the PIN entry wins. -/
theorem C4_pin_priority_witness :
    extract_pincode (str "flat 7, 400001 bhopal") = some (str "400001") ∧
    assocLookup pinsDemo (str "400001") =
      some ⟨str "Mumbai", str "Mumbai City", str "Maharashtra"⟩ ∧
    extract_city_state gazDelhi pinsDemo (str "near india gate, delhi") (some (str "400001")) =
      (some (str "Mumbai"), some (str "Maharashtra")) := by
  refine ⟨by decide, by decide, ?_⟩
  exact C4_pin_priority gazDelhi pinsDemo (str "flat 7, 400001 bhopal")
    (str "near india gate, delhi") (str "400001")
    ⟨str "Mumbai", str "Mumbai City", str "Maharashtra"⟩ (by decide) (by decide)

/-- C5 counterexample: a record whose city is the non-null empty string is
overwritten by the PIN entry, refuting that every non-null field keeps its
value (Python or treats the empty string as absent). -/
theorem C5_counterexample :
    recEmptyCity.city = some [] ∧ recEmptyCity.city ≠ none ∧
    assocLookup pinsDemo (str "110001") =
      some ⟨str "Delhi", str "Central Delhi", str "Delhi"⟩ ∧
    (validate_with_pincode pinsDemo recEmptyCity).city = some (str "Delhi") := by
  refine ⟨rfl, by decide, by decide, by decide⟩

/-- C5 as amended: for a record whose pincode is a nonempty key of the PIN
index, validate_with_pincode fills city, district and state from the entry
exactly when the field is null or the empty string, keeps any other value,
and changes no other field. -/
theorem C5_enrichment_amended (pl : List (List Char × PinEntry)) (r : ParsedAddress)
    (p : List Char) (e : PinEntry)
    (hp : r.pincode = some p) (hne : p ≠ []) (hl : assocLookup pl p = some e) :
    ((r.city = none ∨ r.city = some []) → (validate_with_pincode pl r).city = some e.city) ∧
    (∀ s, r.city = some s → s ≠ [] → (validate_with_pincode pl r).city = r.city) ∧
    ((r.district = none ∨ r.district = some []) →
      (validate_with_pincode pl r).district = some e.district) ∧
    (∀ s, r.district = some s → s ≠ [] → (validate_with_pincode pl r).district = r.district) ∧
    ((r.state = none ∨ r.state = some []) → (validate_with_pincode pl r).state = some e.state) ∧
    (∀ s, r.state = some s → s ≠ [] → (validate_with_pincode pl r).state = r.state) ∧
    (validate_with_pincode pl r).care_of = r.care_of ∧
    (validate_with_pincode pl r).house_number = r.house_number ∧
    (validate_with_pincode pl r).building_name = r.building_name ∧
    (validate_with_pincode pl r).street = r.street ∧
    (validate_with_pincode pl r).locality = r.locality ∧
    (validate_with_pincode pl r).landmark = r.landmark ∧
    (validate_with_pincode pl r).village = r.village ∧
    (validate_with_pincode pl r).subdistrict = r.subdistrict ∧
    (validate_with_pincode pl r).pincode = r.pincode ∧
    (validate_with_pincode pl r).confidence_score = r.confidence_score ∧
    (validate_with_pincode pl r).validation_errors = r.validation_errors := by
  have hv : validate_with_pincode pl r =
      { r with
        city := pyOrStr r.city e.city,
        district := pyOrStr r.district e.district,
        state := pyOrStr r.state e.state } := by
    unfold validate_with_pincode
    rw [hp]
    simp only [if_neg hne, hl]
  rw [hv]
  refine ⟨?_, ?_, ?_, ?_, ?_, ?_, rfl, rfl, rfl, rfl, rfl, rfl, rfl, rfl, rfl, rfl, rfl⟩
  · rintro (h | h) <;> simp [pyOrStr, h]
  · intro s hs hne2
    simp [pyOrStr, hs, hne2]
  · rintro (h | h) <;> simp [pyOrStr, h]
  · intro s hs hne2
    simp [pyOrStr, hs, hne2]
  · rintro (h | h) <;> simp [pyOrStr, h]
  · intro s hs hne2
    simp [pyOrStr, hs, hne2]

/-- Witness for the amended C5 at a concrete record: the populated city
Pune survives, the null district is filled, the empty-string state is
treated as absent and filled. -/
theorem C5_enrichment_amended_witness :
    (validate_with_pincode pinsDemo recMixed).city = some (str "Pune") ∧
    (validate_with_pincode pinsDemo recMixed).district = some (str "Central Delhi") ∧
    (validate_with_pincode pinsDemo recMixed).state = some (str "Delhi") := by
  have h := C5_enrichment_amended pinsDemo recMixed (str "110001")
    ⟨str "Delhi", str "Central Delhi", str "Delhi"⟩ rfl (by decide) (by decide)
  exact ⟨(h.2.1 (str "Pune") rfl (by decide)).trans rfl,
    h.2.2.1 (Or.inl rfl), h.2.2.2.2.1 (Or.inr rfl)⟩

/-- C7: evaluation at the failing input. With a gazetteer holding both the
keys new delhi and delhi and the two-token text new delhi (and no PIN),
extract_city_state returns Delhi: the window loop for i in
range(len(words) - 2) is empty for two tokens, so the trailing pair is
never looked up and the single-token pass matches delhi first. The spec
requires New Delhi here. -/
theorem C7_trailing_pair_bug :
    extract_city_state gazDelhi pinsDemo (str "new delhi") none =
      (some (str "Delhi"), some (str "Delhi")) ∧
    assocLookup gazDelhi (str "new delhi") = some ⟨str "New Delhi", str "Delhi"⟩ ∧
    some (str "Delhi") ≠ some (str "New Delhi") := by
  refine ⟨by decide, by decide, by decide⟩

/-- C8 counterexample: in the text behind metro station, near city mall,
the first proximity marker in text order is behind, so the claim expects
Metro Station; the code searches the whole text with the
near/opp/opposite pattern first and returns City Mall. -/
theorem C8_counterexample :
    AP.extract_landmark (str "behind metro station, near city mall") =
      some (str "City Mall") ∧
    some (str "City Mall") ≠ some (str "Metro Station") := by
  refine ⟨by decide, by decide⟩

/-- C8 as amended: extract_landmark tries the near/opp/opposite pattern
over the whole text before the behind/beside/next-to pattern; the first
pattern that matches anywhere decides the result, which is the captured
text up to the next comma or end of string, stripped, title-cased and
whitespace-collapsed, and is discarded (without trying later patterns)
when shorter than 3 characters. -/
theorem C8_landmark_amended (t : List Char) :
    (AP.extract_landmark t =
      match AP.searchLm1 t with
      | some cap => mkLandmark cap
      | none =>
        match AP.searchLm2 t with
        | some cap => mkLandmark cap
        | none => none) ∧
    (∀ cap l, mkLandmark cap = some l →
      3 ≤ l.length ∧ l = collapseWs (pyTitle (pyStrip cap))) ∧
    (∀ l, AP.extract_landmark t = some l → 3 ≤ l.length) := by
  have hm : ∀ cap l, mkLandmark cap = some l →
      3 ≤ l.length ∧ l = collapseWs (pyTitle (pyStrip cap)) := by
    intro cap l h
    unfold mkLandmark at h
    by_cases hlen : 2 < (collapseWs (pyTitle (pyStrip cap))).length
    · rw [if_pos hlen] at h
      cases h
      exact ⟨hlen, rfl⟩
    · rw [if_neg hlen] at h
      cases h
  have heq : AP.extract_landmark t =
      match AP.searchLm1 t with
      | some cap => mkLandmark cap
      | none =>
        match AP.searchLm2 t with
        | some cap => mkLandmark cap
        | none => none := by
    unfold AP.extract_landmark apLmLoop
    rcases AP.searchLm1 t with _ | c1
    · unfold apLmLoop
      rcases AP.searchLm2 t with _ | c2 <;> rfl
    · rfl
  refine ⟨heq, hm, ?_⟩
  intro l h
  rw [heq] at h
  rcases h1 : AP.searchLm1 t with _ | c1 <;> rw [h1] at h
  · rcases h2 : AP.searchLm2 t with _ | c2 <;> rw [h2] at h
    · cases h
    · exact (hm c2 l h).1
  · exact (hm c1 l h).1

/-- Witness for the amended C8: at a concrete input the first pattern
matches, the processed capture City Hospital is returned and has length
at least 3. -/
theorem C8_landmark_amended_witness :
    AP.extract_landmark (str "near city hospital, delhi") = some (str "City Hospital") ∧
    3 ≤ (str "City Hospital").length := by
  constructor
  · decide
  · exact (C8_landmark_amended (str "near city hospital, delhi")).2.2
      (str "City Hospital") (by decide)

/-- A hit of the association lookup is a member of the list. -/
theorem assocLookup_mem {α : Type} :
    ∀ (l : List (List Char × α)) (k : List Char) (v : α),
      assocLookup l k = some v → (k, v) ∈ l := by
  intro l
  induction l with
  | nil => intro k v h; cases h
  | cons p t ih =>
    rcases p with ⟨k0, v0⟩
    intro k v h
    unfold assocLookup at h
    by_cases hk : k0 = k
    · rw [if_pos hk] at h
      cases h
      subst hk
      exact List.mem_cons_self _ _
    · rw [if_neg hk] at h
      exact List.mem_cons_of_mem _ (ih k v h)

/-- The cleaned lookup key never contains a slash: the slash is not a word
character and is filtered out. -/
theorem pyClean_no_slash (w : List Char) : '/' ∉ pyClean w := by
  intro h
  have := List.of_mem_filter h
  simp [isWordChar, isAlphaC, isDigitC, charLookup, lowPairs, upPairs] at this

/-- C10: the relationship abbreviations are dead entries of the lexicon:
their keys contain a slash while the lookup key is the token stripped of
every non-word character, so no token ever resolves to their expansions,
and tokens such as s/o pass through normalization unchanged. -/
theorem C10_relationship_entries_unreachable :
    (∀ (w v : List Char), assocLookup get_abbreviations (pyClean w) = some v →
      v ∉ [str "son of", str "wife of", str "care of", str "daughter of"]) ∧
    expandToken get_abbreviations (str "s/o") = str "s/o" ∧
    expandToken get_abbreviations (str "w/o") = str "w/o" ∧
    expandToken get_abbreviations (str "c/o") = str "c/o" ∧
    expandToken get_abbreviations (str "d/o") = str "d/o" ∧
    normalize_text (str "s/o ram kumar") get_abbreviations = str "s/o ram kumar" := by
  refine ⟨?_, by decide, by decide, by decide, by decide, by decide⟩
  intro w v hl hv
  have hmem := assocLookup_mem _ _ _ hl
  have hall : ∀ pr ∈ get_abbreviations,
      pr.2 ∈ [str "son of", str "wife of", str "care of", str "daughter of"] →
      '/' ∈ pr.1 := by decide
  exact pyClean_no_slash w (hall _ hmem hv)

/-- Witness for C10: the live entry rd resolves to road, which the theorem
confirms is none of the relationship expansions. -/
theorem C10_witness :
    str "road" ∉ [str "son of", str "wife of", str "care of", str "daughter of"] :=
  (C10_relationship_entries_unreachable).1 (str "rd") (str "road") (by decide)

/-- bestStep never returns none. -/
theorem bestStep_ne_none (text : List Char) (acc : Option (List Char × CityEntry × Nat))
    (p : List Char × CityEntry) : bestStep text acc p ≠ none := by
  unfold bestStep
  rcases acc with _ | ⟨k0, e0, s0⟩
  · simp
  · by_cases hs : s0 < simScore p.1 text <;> simp [hs]

/-- Equation of bestStep on an empty accumulator. -/
theorem bestStep_none (text : List Char) (p : List Char × CityEntry) :
    bestStep text none p = some (p.1, p.2, simScore p.1 text) := rfl

/-- Equation of bestStep on a populated accumulator. -/
theorem bestStep_some (text : List Char) (k0 : List Char) (e0 : CityEntry) (s0 : Nat)
    (p : List Char × CityEntry) :
    bestStep text (some (k0, e0, s0)) p =
      if s0 < simScore p.1 text then some (p.1, p.2, simScore p.1 text)
      else some (k0, e0, s0) := rfl

/-- Invariant of the fold that scans the gazetteer for the best fuzzy
score: the result carries its own score, comes from the accumulator or
the list, and dominates every score of the list and of the accumulator. -/
theorem bestMatch_go (text : List Char) :
    ∀ (l : List (List Char × CityEntry)) (acc : Option (List Char × CityEntry × Nat)),
      (∀ k e s, acc = some (k, e, s) → s = simScore k text) →
      match l.foldl (bestStep text) acc with
      | none => l = [] ∧ acc = none
      | some (k, e, s) =>
          s = simScore k text ∧
          (acc = some (k, e, s) ∨ (k, e) ∈ l) ∧
          (∀ p ∈ l, simScore p.1 text ≤ s) ∧
          (∀ k0 e0 s0, acc = some (k0, e0, s0) → s0 ≤ s) := by
  intro l
  induction l with
  | nil =>
    intro acc hacc
    rcases acc with _ | ⟨k, e, s⟩
    · exact ⟨rfl, rfl⟩
    · refine ⟨hacc k e s rfl, Or.inl rfl, by simp, ?_⟩
      intro k0 e0 s0 h0
      cases h0
      exact le_refl _
  | cons p t ih =>
    intro acc hacc
    have hstep : ∀ k e s, bestStep text acc p = some (k, e, s) → s = simScore k text := by
      intro k e s h
      rcases hA : acc with _ | ⟨k0, e0, s0⟩ <;> rw [hA] at h
      · rw [bestStep_none] at h
        cases h
        rfl
      · rw [bestStep_some] at h
        by_cases hs : s0 < simScore p.1 text
        · rw [if_pos hs] at h
          cases h
          rfl
        · rw [if_neg hs] at h
          cases h
          exact hacc k e s hA
    have hmain := ih (bestStep text acc p) hstep
    show match (p :: t).foldl (bestStep text) acc with
      | none => p :: t = [] ∧ acc = none
      | some (k, e, s) =>
          s = simScore k text ∧
          (acc = some (k, e, s) ∨ (k, e) ∈ p :: t) ∧
          (∀ q ∈ p :: t, simScore q.1 text ≤ s) ∧
          (∀ k0 e0 s0, acc = some (k0, e0, s0) → s0 ≤ s)
    rw [List.foldl_cons]
    rcases hres : t.foldl (bestStep text) (bestStep text acc p) with _ | ⟨k, e, s⟩ <;>
      rw [hres] at hmain
    · exact absurd hmain.2 (bestStep_ne_none text acc p)
    · obtain ⟨h1, h2, h3, h4⟩ := hmain
      have hp_le : simScore p.1 text ≤ s := by
        rcases hA : acc with _ | ⟨k0, e0, s0⟩ <;> rw [hA] at h4
        · rw [bestStep_none] at h4
          exact h4 p.1 p.2 (simScore p.1 text) rfl
        · rw [bestStep_some] at h4
          by_cases hs : s0 < simScore p.1 text
          · rw [if_pos hs] at h4
            exact h4 p.1 p.2 (simScore p.1 text) rfl
          · rw [if_neg hs] at h4
            exact le_trans (le_of_not_lt hs) (h4 k0 e0 s0 rfl)
      refine ⟨h1, ?_, ?_, ?_⟩
      · rcases h2 with h2 | h2
        · rcases hA : acc with _ | ⟨k0, e0, s0⟩ <;> rw [hA] at h2
          · rw [bestStep_none] at h2
            cases h2
            exact Or.inr (List.mem_cons_self _ _)
          · rw [bestStep_some] at h2
            by_cases hs : s0 < simScore p.1 text
            · rw [if_pos hs] at h2
              cases h2
              exact Or.inr (List.mem_cons_self _ _)
            · rw [if_neg hs] at h2
              cases h2
              subst hA
              exact Or.inl rfl
        · exact Or.inr (List.mem_cons_of_mem _ h2)
      · intro q hq
        rcases List.mem_cons.mp hq with hq | hq
        · rw [hq]
          exact hp_le
        · exact h3 q hq
      · intro k0 e0 s0 h0
        rw [h0, bestStep_some] at h4
        by_cases hs : s0 < simScore p.1 text
        · rw [if_pos hs] at h4
          exact le_trans (le_of_lt hs) (h4 p.1 p.2 (simScore p.1 text) rfl)
        · rw [if_neg hs] at h4
          exact h4 k0 e0 s0 rfl

/-- C3: when the PIN stage misses and no exact gazetteer window matches,
the resolver scores the full text against every gazetteer key with the
edit-distance-based partial-substring similarity; the best key carries its
own similarity, dominates every key of the gazetteer, and is accepted
exactly when its score reaches 85 (a key at 85 is accepted, below 85 the
resolution yields null city and state). -/
theorem C3_fuzzy_threshold (cl : List (List Char × CityEntry)) (pl : List (List Char × PinEntry))
    (text : List Char) (pincode : Option (List Char))
    (h1 : pinStage pl pincode = none) (h2 : exactStage cl text = none) :
    match bestMatch cl text with
    | none => cl = [] ∧ extract_city_state_full cl pl text pincode = (none, none)
    | some (k, e, s) =>
        s = simScore k text ∧ (k, e) ∈ cl ∧
        (∀ p ∈ cl, simScore p.1 text ≤ s) ∧
        (85 ≤ s →
          extract_city_state_full cl pl text pincode = (some (pyTitle k), some e.state)) ∧
        (s < 85 → extract_city_state_full cl pl text pincode = (none, none)) := by
  have hres : extract_city_state_full cl pl text pincode = fuzzyStage cl text := by
    unfold extract_city_state_full
    rw [h1, h2]
  have hmain := bestMatch_go text cl none (by intro k e s h; cases h)
  rcases hbm : bestMatch cl text with _ | ⟨k, e, s⟩ <;>
    rw [show cl.foldl (bestStep text) none = bestMatch cl text from rfl, hbm] at hmain
  · refine ⟨hmain.1, ?_⟩
    rw [hres]
    unfold fuzzyStage
    rw [hbm]
  · obtain ⟨h1', h2', h3', _⟩ := hmain
    refine ⟨h1', ?_, h3', ?_, ?_⟩
    · rcases h2' with h | h
      · cases h
      · exact h
    · intro hge
      rw [hres]
      unfold fuzzyStage
      rw [hbm]
      exact if_pos hge
    · intro hlt
      rw [hres]
      unfold fuzzyStage
      rw [hbm]
      exact if_neg (not_le.mpr hlt)

/-- Witness for C3 at two concrete inputs: a key scoring exactly 85 is
accepted and resolved; a key scoring exactly 84 is rejected and the
resolution yields null. -/
theorem C3_fuzzy_threshold_witness :
    (bestMatch gazFuzzy85 fuzzyText85 =
        some (str "abcdefg", ⟨str "D One", str "S One"⟩, 85) ∧
      extract_city_state_full gazFuzzy85 [] fuzzyText85 none =
        (some (str "Abcdefg"), some (str "S One"))) ∧
    (bestMatch gazFuzzy84 fuzzyText84 =
        some (str "abcdefghijklm", ⟨str "D Two", str "S Two"⟩, 84) ∧
      extract_city_state_full gazFuzzy84 [] fuzzyText84 none = (none, none)) := by
  have h85 := C3_fuzzy_threshold gazFuzzy85 [] fuzzyText85 none rfl (by decide)
  have h84 := C3_fuzzy_threshold gazFuzzy84 [] fuzzyText84 none rfl (by decide)
  have hbm85 : bestMatch gazFuzzy85 fuzzyText85 =
      some (str "abcdefg", ⟨str "D One", str "S One"⟩, 85) := by decide
  have hbm84 : bestMatch gazFuzzy84 fuzzyText84 =
      some (str "abcdefghijklm", ⟨str "D Two", str "S Two"⟩, 84) := by decide
  rw [hbm85] at h85
  rw [hbm84] at h84
  refine ⟨⟨hbm85, ?_⟩, ⟨hbm84, ?_⟩⟩
  · exact (h85.2.2.2.1 (by norm_num)).trans (by decide)
  · exact h84.2.2.2.2 (by norm_num)

/-- A hit of the character lookup is a member of the table. -/
theorem charLookup_mem :
    ∀ (l : List (Char × Char)) (k v : Char), charLookup l k = some v → (k, v) ∈ l := by
  intro l
  induction l with
  | nil => intro k v h; cases h
  | cons p t ih =>
    rcases p with ⟨k0, v0⟩
    intro k v h
    unfold charLookup at h
    by_cases hk : k0 = k
    · rw [if_pos hk] at h
      cases h
      subst hk
      exact List.mem_cons_self _ _
    · rw [if_neg hk] at h
      exact List.mem_cons_of_mem _ (ih k v h)

/-- ASCII lowercasing is idempotent: no lowercase image is again a key of
the case table. -/
theorem pyLowerChar_idem (c : Char) : pyLowerChar (pyLowerChar c) = pyLowerChar c := by
  rcases h : charLookup lowPairs c with _ | v
  · simp [pyLowerChar, h]
  · have hv : ∀ pr ∈ lowPairs, charLookup lowPairs pr.2 = none := by decide
    have hm := charLookup_mem _ _ _ h
    have : charLookup lowPairs v = none := hv (c, v) hm
    simp [pyLowerChar, h, this]

/-- Mapping a function that fixes every member is the identity. -/
theorem map_id_on {α : Type} (f : α → α) :
    ∀ (l : List α), (∀ x ∈ l, f x = x) → l.map f = l := by
  intro l
  induction l with
  | nil => intro _; rfl
  | cons x t ih =>
    intro h
    simp only [List.map_cons]
    rw [h x (List.mem_cons_self _ _), ih (fun y hy => h y (List.mem_cons_of_mem _ hy))]

/-- Members of the stripped string are members of the string. -/
theorem pyStrip_subset (l : List Char) (c : Char) (h : c ∈ pyStrip l) : c ∈ l := by
  unfold pyStrip at h
  rw [List.mem_reverse] at h
  have h1 := (List.dropWhile_sublist _).mem h
  rw [List.mem_reverse] at h1
  exact (List.dropWhile_sublist _).mem h1

/-- Members of the comma-collapsed string are members of the string. -/
theorem ccAux_subset :
    ∀ (l : List Char) (b : Bool) (c : Char), c ∈ collapseCommasAux b l → c ∈ l := by
  intro l
  induction l with
  | nil => intro b c h; cases h
  | cons x t ih =>
    intro b c h
    unfold collapseCommasAux at h
    by_cases hx : x = ','
    · rw [if_pos hx] at h
      by_cases hb : b = true
      · rw [if_pos hb] at h
        exact List.mem_cons_of_mem _ (ih _ _ h)
      · rw [if_neg hb] at h
        rcases List.mem_cons.mp h with h | h
        · rw [h, hx]
          exact List.mem_cons_self _ _
        · exact List.mem_cons_of_mem _ (ih _ _ h)
    · rw [if_neg hx] at h
      rcases List.mem_cons.mp h with h | h
      · rw [h]
        exact List.mem_cons_self _ _
      · exact List.mem_cons_of_mem _ (ih _ _ h)

/-- The whitespace collapse preserves any character property that holds
of the space character. -/
theorem cwAux_pred (Q : Char → Prop) (hsp : Q ' ') :
    ∀ (l : List Char) (b : Bool), (∀ c ∈ l, Q c) → ∀ c ∈ collapseWsAux b l, Q c := by
  intro l
  induction l with
  | nil => intro b _ c h; cases h
  | cons x t ih =>
    intro b hl c h
    unfold collapseWsAux at h
    have hx := hl x (List.mem_cons_self _ _)
    have ht : ∀ d ∈ t, Q d := fun d hd => hl d (List.mem_cons_of_mem _ hd)
    by_cases hw : isWsC x = true
    · rw [if_pos hw] at h
      by_cases hb : b = true
      · rw [if_pos hb] at h
        exact ih _ ht c h
      · rw [if_neg hb] at h
        rcases List.mem_cons.mp h with h | h
        · rw [h]
          exact hsp
        · exact ih _ ht c h
    · rw [if_neg hw] at h
      rcases List.mem_cons.mp h with h | h
      · rw [h]
        exact hx
      · exact ih _ ht c h

/-- The adjacency predicate passes to the tail. -/
theorem noAdjP_tail (q : Char → Bool) (c : Char) (l : List Char)
    (h : noAdjP q (c :: l) = true) : noAdjP q l = true := by
  rcases l with _ | ⟨d, t⟩
  · rfl
  · unfold noAdjP at h
    rw [Bool.and_eq_true] at h
    exact h.2

/-- Adjacency-freedom of a cons from a head condition. -/
theorem noAdjP_cons_intro (q : Char → Bool) (c : Char) (l : List Char)
    (hl : noAdjP q l = true) (hc : q c = false ∨ headNot q l = true) :
    noAdjP q (c :: l) = true := by
  rcases l with _ | ⟨d, t⟩
  · rfl
  · unfold noAdjP
    rw [Bool.and_eq_true]
    refine ⟨?_, hl⟩
    rcases hc with hc | hc
    · simp [hc]
    · unfold headNot at hc
      simp_all

/-- The head pair of an adjacency-free cons. -/
theorem noAdjP_cons_head (q : Char → Bool) (c : Char) (l : List Char)
    (h : noAdjP q (c :: l) = true) (hq : q c = true) : headNot q l = true := by
  rcases l with _ | ⟨d, t⟩
  · rfl
  · unfold noAdjP at h
    rw [Bool.and_eq_true] at h
    have := h.1
    unfold headNot
    simp only [hq, Bool.true_and] at this
    simp_all

/-- Characters all avoiding q give a q-adjacency-free list. -/
theorem noAdjP_of_all (q : Char → Bool) :
    ∀ (l : List Char), (∀ c ∈ l, q c = false) → noAdjP q l = true := by
  intro l
  induction l with
  | nil => intro _; rfl
  | cons c t ih =>
    intro h
    refine noAdjP_cons_intro q c t (ih (fun d hd => h d (List.mem_cons_of_mem _ hd))) ?_
    exact Or.inl (h c (List.mem_cons_self _ _))

/-- Characters all avoiding q give a q-free head. -/
theorem headNot_of_all (q : Char → Bool) (l : List Char)
    (h : ∀ c ∈ l, q c = false) : headNot q l = true := by
  rcases l with _ | ⟨c, t⟩
  · rfl
  · unfold headNot
    simp [h c (List.mem_cons_self _ _)]

/-- Adjacency-freedom restricts to the left part of an append. -/
theorem noAdjP_append_left (q : Char → Bool) :
    ∀ (a b : List Char), noAdjP q (a ++ b) = true → noAdjP q a = true := by
  intro a
  induction a with
  | nil => intro b _; rfl
  | cons c t ih =>
    intro b h
    rcases t with _ | ⟨d, t2⟩
    · rfl
    · simp only [List.cons_append] at h
      unfold noAdjP at h ⊢
      rw [Bool.and_eq_true] at h ⊢
      exact ⟨h.1, ih b h.2⟩

/-- Adjacency-freedom restricts to the right part of an append. -/
theorem noAdjP_append_right (q : Char → Bool) :
    ∀ (a b : List Char), noAdjP q (a ++ b) = true → noAdjP q b = true := by
  intro a
  induction a with
  | nil => intro b h; exact h
  | cons c t ih =>
    intro b h
    exact ih b (noAdjP_tail q c (t ++ b) h)

/-- The head of a nonempty left append decides headNot. -/
theorem headNot_append (q : Char → Bool) (a b : List Char) (ha : a ≠ []) :
    headNot q (a ++ b) = headNot q a := by
  rcases a with _ | ⟨c, t⟩
  · exact absurd rfl ha
  · rfl

/-- Gluing two adjacency-free lists whose boundary is safe. -/
theorem noAdjP_append (q : Char → Bool) :
    ∀ (a b : List Char), noAdjP q a = true → noAdjP q b = true →
      (headNot q a.reverse = true ∨ headNot q b = true) → noAdjP q (a ++ b) = true := by
  intro a
  induction a with
  | nil => intro b _ hb _; exact hb
  | cons c t ih =>
    intro b ha hb hmid
    rcases t with _ | ⟨d, t2⟩
    · refine noAdjP_cons_intro q c b hb ?_
      rcases hmid with hmid | hmid
      · simp only [List.reverse_cons, List.reverse_nil, List.nil_append] at hmid
        exact Or.inl (by simpa [headNot] using hmid)
      · exact Or.inr hmid
    · simp only [List.cons_append]
      unfold noAdjP at ha
      rw [Bool.and_eq_true] at ha
      have hrev : headNot q (d :: t2).reverse = true ∨ headNot q b = true := by
        rcases hmid with hmid | hmid
        · left
          have hne : (d :: t2).reverse ≠ [] := by simp
          rw [List.reverse_cons, headNot_append q _ _ hne] at hmid
          exact hmid
        · exact Or.inr hmid
      have := ih b ha.2 hb hrev
      unfold noAdjP
      rw [Bool.and_eq_true]
      simp only [List.cons_append] at this ⊢
      exact ⟨ha.1, this⟩

/-- Equation of the splitter on the empty list. -/
theorem splitAux_nil (p : Char → Bool) (acc : List Char) :
    splitAux p acc [] = if acc = [] then [] else [acc.reverse] := rfl

/-- Equation of the splitter on a cons. -/
theorem splitAux_cons (p : Char → Bool) (acc : List Char) (c : Char) (cs : List Char) :
    splitAux p acc (c :: cs) =
      if p c = true then
        (if acc = [] then splitAux p [] cs else acc.reverse :: splitAux p [] cs)
      else splitAux p (c :: acc) cs := rfl

/-- Tokens produced by the splitter are nonempty. -/
theorem splitAux_ne_nil (p : Char → Bool) :
    ∀ (l acc : List Char), ∀ t ∈ splitAux p acc l, t ≠ [] := by
  intro l
  induction l with
  | nil =>
    intro acc t ht
    unfold splitAux at ht
    by_cases hacc : acc = []
    · rw [if_pos hacc] at ht
      cases ht
    · rw [if_neg hacc] at ht
      rcases List.mem_singleton.mp ht with h
      rw [h]
      simpa using hacc
  | cons c cs ih =>
    intro acc t ht
    unfold splitAux at ht
    by_cases hc : p c = true
    · rw [if_pos hc] at ht
      by_cases hacc : acc = []
      · rw [if_pos hacc] at ht
        exact ih [] t ht
      · rw [if_neg hacc] at ht
        rcases List.mem_cons.mp ht with h | h
        · rw [h]
          simpa using hacc
        · exact ih [] t h
    · rw [if_neg hc] at ht
      exact ih (c :: acc) t ht

/-- Characters of a token avoid the separator class, provided the
accumulated prefix does. -/
theorem splitAux_no_sep (p : Char → Bool) :
    ∀ (l acc : List Char), (∀ c ∈ acc, p c = false) →
      ∀ t ∈ splitAux p acc l, ∀ c ∈ t, p c = false := by
  intro l
  induction l with
  | nil =>
    intro acc hacc t ht c hc
    unfold splitAux at ht
    by_cases h : acc = []
    · rw [if_pos h] at ht
      cases ht
    · rw [if_neg h] at ht
      rcases List.mem_singleton.mp ht with h2
      rw [h2] at hc
      exact hacc c (List.mem_reverse.mp hc)
  | cons x cs ih =>
    intro acc hacc t ht c hc
    unfold splitAux at ht
    by_cases hx : p x = true
    · rw [if_pos hx] at ht
      by_cases h : acc = []
      · rw [if_pos h] at ht
        exact ih [] (by intro d hd; cases hd) t ht c hc
      · rw [if_neg h] at ht
        rcases List.mem_cons.mp ht with h2 | h2
        · rw [h2] at hc
          exact hacc c (List.mem_reverse.mp hc)
        · exact ih [] (by intro d hd; cases hd) t h2 c hc
    · rw [if_neg hx] at ht
      refine ih (x :: acc) ?_ t ht c hc
      intro d hd
      rcases List.mem_cons.mp hd with h2 | h2
      · rw [h2]
        simpa using hx
      · exact hacc d h2

/-- Characters of a token come from the accumulator or the input. -/
theorem splitAux_subset (p : Char → Bool) :
    ∀ (l acc : List Char), ∀ t ∈ splitAux p acc l, ∀ c ∈ t, c ∈ acc ∨ c ∈ l := by
  intro l
  induction l with
  | nil =>
    intro acc t ht c hc
    unfold splitAux at ht
    by_cases h : acc = []
    · rw [if_pos h] at ht
      cases ht
    · rw [if_neg h] at ht
      rcases List.mem_singleton.mp ht with h2
      rw [h2] at hc
      exact Or.inl (List.mem_reverse.mp hc)
  | cons x cs ih =>
    intro acc t ht c hc
    unfold splitAux at ht
    by_cases hx : p x = true
    · rw [if_pos hx] at ht
      by_cases h : acc = []
      · rw [if_pos h] at ht
        rcases ih [] t ht c hc with h2 | h2
        · cases h2
        · exact Or.inr (List.mem_cons_of_mem _ h2)
      · rw [if_neg h] at ht
        rcases List.mem_cons.mp ht with h2 | h2
        · rw [h2] at hc
          exact Or.inl (List.mem_reverse.mp hc)
        · rcases ih [] t h2 c hc with h3 | h3
          · cases h3
          · exact Or.inr (List.mem_cons_of_mem _ h3)
    · rw [if_neg hx] at ht
      rcases ih (x :: acc) t ht c hc with h2 | h2
      · rcases List.mem_cons.mp h2 with h3 | h3
        · rw [h3]
          exact Or.inr (List.mem_cons_self _ _)
        · exact Or.inl h3
      · exact Or.inr (List.mem_cons_of_mem _ h2)

/-- Splitting at a separator character splits the list. -/
theorem splitAux_sep (p : Char → Bool) (sep : Char) (hsep : p sep = true) :
    ∀ (a b acc : List Char),
      splitAux p acc (a ++ sep :: b) = splitAux p acc a ++ splitAux p [] b := by
  intro a
  induction a with
  | nil =>
    intro b acc
    simp only [List.nil_append]
    rw [splitAux_cons, if_pos hsep, splitAux_nil]
    by_cases h : acc = []
    · rw [if_pos h, if_pos h]
      simp
    · rw [if_neg h, if_neg h]
      simp
  | cons c cs ih =>
    intro b acc
    simp only [List.cons_append]
    rw [splitAux_cons, splitAux_cons]
    by_cases hc : p c = true
    · rw [if_pos hc, if_pos hc]
      by_cases h : acc = []
      · rw [if_pos h, if_pos h]
        exact ih b []
      · rw [if_neg h, if_neg h]
        rw [ih b []]
        rfl
    · rw [if_neg hc, if_neg hc]
      exact ih b (c :: acc)

/-- A separator-free nonempty list is one whole token. -/
theorem splitAux_keep (p : Char → Bool) :
    ∀ (l acc : List Char), (∀ c ∈ l, p c = false) → acc.reverse ++ l ≠ [] →
      splitAux p acc l = [acc.reverse ++ l] := by
  intro l
  induction l with
  | nil =>
    intro acc _ hne
    unfold splitAux
    have hacc : acc ≠ [] := by
      intro h
      rw [h] at hne
      simp at hne
    rw [if_neg hacc]
    simp
  | cons c cs ih =>
    intro acc hl hne
    unfold splitAux
    have hc : p c = false := hl c (List.mem_cons_self _ _)
    rw [hc]
    simp only [Bool.false_eq_true, if_false]
    rw [ih (c :: acc) (fun d hd => hl d (List.mem_cons_of_mem _ hd)) (by simp)]
    simp

/-- Tokens of an adjacency-free list are adjacency-free. -/
theorem splitAux_noAdj (p q : Char → Bool) :
    ∀ (l acc : List Char), noAdjP q (acc.reverse ++ l) = true →
      ∀ t ∈ splitAux p acc l, noAdjP q t = true := by
  intro l
  induction l with
  | nil =>
    intro acc h t ht
    unfold splitAux at ht
    by_cases hacc : acc = []
    · rw [if_pos hacc] at ht
      cases ht
    · rw [if_neg hacc] at ht
      rcases List.mem_singleton.mp ht with h2
      rw [h2]
      exact noAdjP_append_left q _ _ h
  | cons c cs ih =>
    intro acc h t ht
    unfold splitAux at ht
    by_cases hc : p c = true
    · rw [if_pos hc] at ht
      have hcs : noAdjP q ([].reverse ++ cs) = true := by
        simp only [List.reverse_nil, List.nil_append]
        have := noAdjP_append_right q acc.reverse (c :: cs) h
        exact noAdjP_tail q c cs this
      by_cases hacc : acc = []
      · rw [if_pos hacc] at ht
        exact ih [] hcs t ht
      · rw [if_neg hacc] at ht
        rcases List.mem_cons.mp ht with h2 | h2
        · rw [h2]
          exact noAdjP_append_left q _ _ h
        · exact ih [] hcs t h2
    · rw [if_neg hc] at ht
      refine ih (c :: acc) ?_ t ht
      simpa using h

/-- Identity of dropWhile under a failing head. -/
theorem dropWhile_eq_self_of_headNot (p : Char → Bool) (l : List Char)
    (h : headNot p l = true) : l.dropWhile p = l := by
  rcases l with _ | ⟨c, t⟩
  · rfl
  · unfold headNot at h
    simp only [Bool.not_eq_true'] at h
    simp [List.dropWhile, h]

/-- Strip is the identity when neither end is whitespace. -/
theorem pyStrip_eq_self (l : List Char) (h1 : headNot isWsC l = true)
    (h2 : headNot isWsC l.reverse = true) : pyStrip l = l := by
  unfold pyStrip
  rw [dropWhile_eq_self_of_headNot _ _ h1, dropWhile_eq_self_of_headNot _ _ h2,
    List.reverse_reverse]

/-- The comma collapse is the identity on comma-adjacency-free strings. -/
theorem ccAux_id :
    ∀ (l : List Char) (b : Bool), noAdjP isComma l = true →
      (b = true → headNot isComma l = true) → collapseCommasAux b l = l := by
  intro l
  induction l with
  | nil => intro b _ _; rfl
  | cons c cs ih =>
    intro b hadj hb
    unfold collapseCommasAux
    by_cases hc : c = ','
    · subst hc
      simp only [if_pos rfl]
      have hbf : b = false := by
        rcases b with _ | _
        · rfl
        · have := hb rfl
          unfold headNot at this
          simp [isComma] at this
      subst hbf
      simp only [Bool.false_eq_true, if_false]
      rw [ih true (noAdjP_tail _ _ _ hadj)
        (fun _ => noAdjP_cons_head isComma ',' cs hadj (by simp [isComma]))]
      simp
    · rw [if_neg hc]
      rw [ih false (noAdjP_tail _ _ _ hadj) (by intro h; cases h)]

/-- The whitespace collapse is the identity on strings whose whitespace is
single spaces. -/
theorem cwAux_id :
    ∀ (l : List Char) (b : Bool), noAdjP isWsC l = true →
      (∀ c ∈ l, isWsC c = true → c = ' ') →
      (b = true → headNot isWsC l = true) → collapseWsAux b l = l := by
  intro l
  induction l with
  | nil => intro b _ _ _; rfl
  | cons c cs ih =>
    intro b hadj hsp hb
    unfold collapseWsAux
    by_cases hc : isWsC c = true
    · rw [if_pos hc]
      have hbf : b = false := by
        rcases b with _ | _
        · rfl
        · have := hb rfl
          unfold headNot at this
          simp [hc] at this
      subst hbf
      simp only [Bool.false_eq_true, if_false]
      rw [hsp c (List.mem_cons_self _ _) hc]
      rw [ih true (noAdjP_tail _ _ _ hadj)
        (fun d hd => hsp d (List.mem_cons_of_mem _ hd))
        (fun _ => noAdjP_cons_head isWsC c cs hadj hc)]
    · rw [if_neg hc]
      rw [ih false (noAdjP_tail _ _ _ hadj)
        (fun d hd => hsp d (List.mem_cons_of_mem _ hd)) (by intro h; cases h)]

/-- The comma collapse emits no adjacent commas and, started flagged,
no leading comma. -/
theorem ccAux_noAdj :
    ∀ (l : List Char) (b : Bool),
      noAdjP isComma (collapseCommasAux b l) = true ∧
      (b = true → headNot isComma (collapseCommasAux b l) = true) := by
  intro l
  induction l with
  | nil => intro b; exact ⟨rfl, fun _ => rfl⟩
  | cons c cs ih =>
    intro b
    unfold collapseCommasAux
    by_cases hc : c = ','
    · subst hc
      simp only [if_pos rfl]
      rcases b with _ | _
      · simp only [Bool.false_eq_true, if_false]
        constructor
        · exact noAdjP_cons_intro isComma ',' _ (ih true).1 (Or.inr ((ih true).2 rfl))
        · intro h
          cases h
      · simp only [if_pos rfl]
        exact ⟨(ih true).1, fun _ => (ih true).2 rfl⟩
    · rw [if_neg hc]
      constructor
      · refine noAdjP_cons_intro isComma c _ (ih false).1 (Or.inl ?_)
        simp [isComma, hc]
      · intro _
        unfold headNot
        simp [isComma, hc]

/-- The head of the whitespace collapse, started unflagged, is the head
character or a space. -/
theorem cwAux_head_comma (l : List Char) (h : headNot isComma l = true) :
    headNot isComma (collapseWsAux false l) = true := by
  rcases l with _ | ⟨c, t⟩
  · rfl
  · unfold collapseWsAux
    by_cases hw : isWsC c = true
    · rw [if_pos hw]
      simp only [Bool.false_eq_true, if_false]
      unfold headNot
      simp [isComma]
    · rw [if_neg hw]
      exact h

/-- The whitespace collapse preserves comma-adjacency-freedom. -/
theorem cwAux_noAdj_comma :
    ∀ (l : List Char) (b : Bool), noAdjP isComma l = true →
      noAdjP isComma (collapseWsAux b l) = true := by
  intro l
  induction l with
  | nil => intro b _; rfl
  | cons c cs ih =>
    intro b hadj
    unfold collapseWsAux
    by_cases hw : isWsC c = true
    · rw [if_pos hw]
      by_cases hb : b = true
      · rw [if_pos hb]
        exact ih true (noAdjP_tail _ _ _ hadj)
      · rw [if_neg hb]
        refine noAdjP_cons_intro isComma ' ' _ (ih true (noAdjP_tail _ _ _ hadj)) (Or.inl ?_)
        simp [isComma]
    · rw [if_neg hw]
      refine noAdjP_cons_intro isComma c _ (ih false (noAdjP_tail _ _ _ hadj)) ?_
      by_cases hc : isComma c = true
      · refine Or.inr (cwAux_head_comma cs ?_)
        exact noAdjP_cons_head isComma c cs hadj hc
      · exact Or.inl (by simpa using hc)

/-- Equation of joinSpace on a cons with nonempty tail. -/
theorem joinSpace_cons2 (e e2 : List Char) (es : List (List Char)) :
    joinSpace (e :: e2 :: es) = e ++ ' ' :: joinSpace (e2 :: es) := rfl

/-- A join of a nonempty list of nonempty elements is nonempty. -/
theorem joinSpace_ne_nil :
    ∀ (es : List (List Char)), es ≠ [] → (∀ e ∈ es, e ≠ []) → joinSpace es ≠ [] := by
  intro es
  rcases es with _ | ⟨e, rest⟩
  · intro h _
    exact absurd rfl h
  · intro _ hne
    rcases rest with _ | ⟨e2, rest2⟩
    · exact hne e (List.mem_cons_self _ _)
    · rw [joinSpace_cons2]
      have := hne e (List.mem_cons_self _ _)
      intro hcontra
      rcases e with _ | ⟨c, t⟩
      · exact this rfl
      · cases hcontra

/-- Join distributes over append of nonempty token lists. -/
theorem joinSpace_append :
    ∀ (as bs : List (List Char)), as ≠ [] → bs ≠ [] →
      joinSpace (as ++ bs) = joinSpace as ++ ' ' :: joinSpace bs := by
  intro as
  induction as with
  | nil => intro bs h _; exact absurd rfl h
  | cons a as2 ih =>
    intro bs _ hbs
    rcases as2 with _ | ⟨a2, as3⟩
    · simp only [List.singleton_append]
      rcases bs with _ | ⟨b, bs2⟩
      · exact absurd rfl hbs
      · rw [joinSpace_cons2]
        rfl
    · simp only [List.cons_append]
      simp only [List.cons_append] at ih
      rw [joinSpace_cons2]
      rw [ih bs (by simp) hbs]
      rw [joinSpace_cons2]
      simp

/-- Splitting a space-joined list splits each element, in order. -/
theorem splitP_joinSpace (p : Char → Bool) (hsp : p ' ' = true) :
    ∀ (es : List (List Char)), splitP p (joinSpace es) = es.flatMap (splitP p) := by
  intro es
  induction es with
  | nil => rfl
  | cons e rest ih =>
    rcases rest with _ | ⟨e2, rest2⟩
    · show splitP p e = splitP p e ++ []
      simp
    · rw [joinSpace_cons2]
      show splitAux p [] (e ++ ' ' :: joinSpace (e2 :: rest2)) = _
      rw [splitAux_sep p ' ' hsp]
      rw [show splitAux p [] (joinSpace (e2 :: rest2)) = splitP p (joinSpace (e2 :: rest2)) from rfl]
      rw [ih]
      rfl

/-- A character property holding on every element and on the space holds
on the join. -/
theorem joinSpace_all (Q : Char → Prop) (hsp : Q ' ') :
    ∀ (es : List (List Char)), (∀ e ∈ es, ∀ c ∈ e, Q c) → ∀ c ∈ joinSpace es, Q c := by
  intro es
  induction es with
  | nil => intro _ c hc; cases hc
  | cons e rest ih =>
    intro h c hc
    rcases rest with _ | ⟨e2, rest2⟩
    · exact h e (List.mem_cons_self _ _) c hc
    · rw [joinSpace_cons2] at hc
      rcases List.mem_append.mp hc with hc | hc
      · exact h e (List.mem_cons_self _ _) c hc
      · rcases List.mem_cons.mp hc with hc | hc
        · rw [hc]
          exact hsp
        · exact ih (fun e' he' => h e' (List.mem_cons_of_mem _ he')) c hc

/-- The head of a join of nonempty q-head-free elements is q-free. -/
theorem joinSpace_headNot (q : Char → Bool) :
    ∀ (es : List (List Char)), (∀ e ∈ es, e ≠ [] ∧ headNot q e = true) →
      headNot q (joinSpace es) = true := by
  intro es
  rcases es with _ | ⟨e, rest⟩
  · intro _; rfl
  · intro h
    rcases rest with _ | ⟨e2, rest2⟩
    · exact (h e (List.mem_cons_self _ _)).2
    · rw [joinSpace_cons2]
      rw [headNot_append q _ _ (h e (List.mem_cons_self _ _)).1]
      exact (h e (List.mem_cons_self _ _)).2

/-- The last character of a join of nonempty q-last-free elements is
q-free. -/
theorem joinSpace_lastNot (q : Char → Bool) :
    ∀ (es : List (List Char)), (∀ e ∈ es, e ≠ [] ∧ headNot q e.reverse = true) →
      headNot q (joinSpace es).reverse = true := by
  intro es
  induction es with
  | nil => intro _; rfl
  | cons e rest ih =>
    intro h
    rcases rest with _ | ⟨e2, rest2⟩
    · exact (h e (List.mem_cons_self _ _)).2
    · rw [joinSpace_cons2]
      rw [List.reverse_append, List.reverse_cons]
      have hjne : joinSpace (e2 :: rest2) ≠ [] := by
        refine joinSpace_ne_nil _ (by simp) ?_
        intro e' he'
        exact (h e' (List.mem_cons_of_mem _ he')).1
      have hrne : (joinSpace (e2 :: rest2)).reverse ≠ [] := by
        simpa using hjne
      rw [List.append_assoc, headNot_append q _ _ hrne]
      exact ih (fun e' he' => h e' (List.mem_cons_of_mem _ he'))

/-- Comma-adjacency-freedom of the join from that of the elements. -/
theorem joinSpace_noAdj_comma :
    ∀ (es : List (List Char)), (∀ e ∈ es, noAdjP isComma e = true) →
      noAdjP isComma (joinSpace es) = true := by
  intro es
  induction es with
  | nil => intro _; rfl
  | cons e rest ih =>
    intro h
    rcases rest with _ | ⟨e2, rest2⟩
    · exact h e (List.mem_cons_self _ _)
    · rw [joinSpace_cons2]
      refine noAdjP_append isComma e _ (h e (List.mem_cons_self _ _)) ?_ ?_
      · refine noAdjP_cons_intro isComma ' ' _ (ih (fun e' he' => h e' (List.mem_cons_of_mem _ he'))) (Or.inl ?_)
        simp [isComma]
      · right
        unfold headNot
        simp [isComma]

/-- Whitespace-adjacency-freedom of the join from that of the elements,
whose ends avoid whitespace. -/
theorem joinSpace_noAdj_ws :
    ∀ (es : List (List Char)),
      (∀ e ∈ es, e ≠ [] ∧ noAdjP isWsC e = true ∧ headNot isWsC e = true ∧
        headNot isWsC e.reverse = true) →
      noAdjP isWsC (joinSpace es) = true := by
  intro es
  induction es with
  | nil => intro _; rfl
  | cons e rest ih =>
    intro h
    rcases rest with _ | ⟨e2, rest2⟩
    · exact (h e (List.mem_cons_self _ _)).2.1
    · rw [joinSpace_cons2]
      have hrest : ∀ e' ∈ e2 :: rest2, e' ≠ [] ∧ noAdjP isWsC e' = true ∧
          headNot isWsC e' = true ∧ headNot isWsC e'.reverse = true :=
        fun e' he' => h e' (List.mem_cons_of_mem _ he')
      refine noAdjP_append isWsC e _ (h e (List.mem_cons_self _ _)).2.1 ?_ ?_
      · refine noAdjP_cons_intro isWsC ' ' _ (ih hrest) ?_
        right
        refine joinSpace_headNot isWsC _ ?_
        intro e' he'
        exact ⟨(hrest e' he').1, (hrest e' he').2.2.1⟩
      · left
        exact (h e (List.mem_cons_self _ _)).2.2.2

/-- Rejoining the per-element splits reproduces the join. -/
theorem joinSpace_flatMap_split :
    ∀ (es : List (List Char)),
      (∀ e ∈ es, splitP isWsC e ≠ [] ∧ joinSpace (splitP isWsC e) = e) →
      joinSpace (es.flatMap (splitP isWsC)) = joinSpace es := by
  intro es
  induction es with
  | nil => intro _; rfl
  | cons e rest ih =>
    intro h
    rcases rest with _ | ⟨e2, rest2⟩
    · show joinSpace (splitP isWsC e ++ []) = joinSpace [e]
      rw [List.append_nil]
      exact (h e (List.mem_cons_self _ _)).2
    · show joinSpace (splitP isWsC e ++ (e2 :: rest2).flatMap (splitP isWsC)) = _
      have hrest : ∀ e' ∈ e2 :: rest2, splitP isWsC e' ≠ [] ∧
          joinSpace (splitP isWsC e') = e' :=
        fun e' he' => h e' (List.mem_cons_of_mem _ he')
      have hflat_ne : (e2 :: rest2).flatMap (splitP isWsC) ≠ [] := by
        show splitP isWsC e2 ++ rest2.flatMap (splitP isWsC) ≠ []
        intro hcontra
        rcases List.append_eq_nil.mp hcontra with ⟨h1, _⟩
        exact (hrest e2 (List.mem_cons_self _ _)).1 h1
      rw [joinSpace_append _ _ (h e (List.mem_cons_self _ _)).1 hflat_ne]
      rw [ih hrest, (h e (List.mem_cons_self _ _)).2, joinSpace_cons2]

/-- Unpacking okChar. -/
theorem okChar_spec (c : Char) (h : okChar c = true) :
    allowedChar c = true ∧ pyLowerChar c = c := by
  unfold okChar at h
  rw [Bool.and_eq_true] at h
  exact ⟨h.1, of_decide_eq_true h.2⟩

/-- Unpacking goodChar. -/
theorem goodChar_spec (c : Char) (h : goodChar c = true) :
    allowedChar c = true ∧ pyLowerChar c = c ∧ (isWsC c = true → c = ' ') := by
  unfold goodChar at h
  rw [Bool.and_eq_true] at h
  obtain ⟨h1, h2⟩ := h
  obtain ⟨ha, hl⟩ := okChar_spec c h1
  refine ⟨ha, hl, ?_⟩
  intro hw
  rw [Bool.or_eq_true] at h2
  rcases h2 with h2 | h2
  · rw [Bool.not_eq_true'] at h2
    rw [h2] at hw
    cases hw
  · exact of_decide_eq_true h2

/-- goodChar from okChar on non-whitespace characters. -/
theorem goodChar_of_okChar (c : Char) (h1 : okChar c = true) (h2 : isWsC c = false) :
    goodChar c = true := by
  unfold goodChar
  rw [h1, h2]
  rfl

/-- Every character of the second normalization intermediate (after the
character replacement) is okChar. -/
theorem t2_okChar (text : List Char) :
    ∀ c ∈ (pyStrip (pyLower text)).map (fun c => if allowedChar c then c else ' '),
      okChar c = true := by
  intro c hc
  rw [List.mem_map] at hc
  obtain ⟨x, hx, hmap⟩ := hc
  have hxl : pyLowerChar x = x := by
    have hx2 : x ∈ pyLower text := pyStrip_subset _ _ hx
    unfold pyLower at hx2
    rw [List.mem_map] at hx2
    obtain ⟨x0, _, hx0⟩ := hx2
    rw [← hx0]
    exact pyLowerChar_idem x0
  by_cases hall : allowedChar x = true
  · rw [if_pos hall] at hmap
    rw [← hmap]
    unfold okChar
    rw [hall, hxl]
    simp
  · rw [if_neg hall] at hmap
    rw [← hmap]
    decide

/-- Every character of the fourth normalization intermediate is okChar. -/
theorem t4_okChar (text : List Char) :
    ∀ c ∈ collapseWs (collapseCommas
      ((pyStrip (pyLower text)).map (fun c => if allowedChar c then c else ' '))),
      okChar c = true := by
  intro c hc
  refine cwAux_pred (fun d => okChar d = true) (by decide) _ false ?_ c hc
  intro d hd
  exact t2_okChar text d (ccAux_subset _ _ _ hd)

/-- The fourth normalization intermediate has no adjacent commas. -/
theorem t4_noAdjComma (text : List Char) :
    noAdjP isComma (collapseWs (collapseCommas
      ((pyStrip (pyLower text)).map (fun c => if allowedChar c then c else ' ')))) = true := by
  exact cwAux_noAdj_comma _ false (ccAux_noAdj _ false).1

/-- Any token of the whitespace split of the fourth intermediate, after
abbreviation expansion, satisfies ElemOK. -/
theorem elemOK_of_token (text w : List Char)
    (hw : w ∈ splitP isWsC (collapseWs (collapseCommas
      ((pyStrip (pyLower text)).map (fun c => if allowedChar c then c else ' '))))) :
    ElemOK (expandToken get_abbreviations w) := by
  rcases hv : assocLookup get_abbreviations (pyClean w) with _ | v
  · have hexp : expandToken get_abbreviations w = w := by
      unfold expandToken
      rw [hv]
    rw [hexp]
    have hne : w ≠ [] := splitAux_ne_nil isWsC _ [] w hw
    have hnws : ∀ c ∈ w, isWsC c = false := splitAux_no_sep isWsC _ [] (by intro d hd; cases hd) w hw
    have hgood : ∀ c ∈ w, goodChar c = true := by
      intro c hc
      rcases splitAux_subset isWsC _ [] w hw c hc with h | h
      · cases h
      · exact goodChar_of_okChar c (t4_okChar text c h) (hnws c hc)
    have hsplit : splitP isWsC w = [w] := by
      have := splitAux_keep isWsC w [] hnws (by simpa using hne)
      simpa using this
    refine ⟨hne, hgood, ?_, ?_, ?_, ?_, ?_, ?_, ?_⟩
    · refine splitAux_noAdj isWsC isComma _ [] ?_ w hw
      simpa using t4_noAdjComma text
    · exact noAdjP_of_all isWsC w hnws
    · exact headNot_of_all isWsC w hnws
    · refine headNot_of_all isWsC w.reverse ?_
      intro c hc
      exact hnws c (List.mem_reverse.mp hc)
    · rw [hsplit]
      simp
    · rw [hsplit]
      rfl
    · rw [hsplit]
      intro u hu
      rcases List.mem_singleton.mp hu with h
      rw [h]
      unfold expandToken
      rw [hv]
  · have hexp : expandToken get_abbreviations w = v := by
      unfold expandToken
      rw [hv]
    rw [hexp]
    have hmem := assocLookup_mem _ _ _ hv
    have hall : ∀ pr ∈ get_abbreviations, valueOK pr.2 = true := by decide
    have hvok : valueOK v = true := hall _ hmem
    unfold valueOK at hvok
    simp only [Bool.and_eq_true] at hvok
    obtain ⟨⟨⟨⟨⟨⟨⟨⟨h1, h2⟩, h3⟩, h4⟩, h5⟩, h6⟩, h7⟩, h8⟩, h9⟩ := hvok
    refine ⟨?_, ?_, h3, h4, h5, h6, ?_, of_decide_eq_true h8, ?_⟩
    · simpa using h1
    · intro c hc
      exact List.all_eq_true.mp h2 c hc
    · simpa using h7
    · intro u hu
      exact of_decide_eq_true (List.all_eq_true.mp h9 u hu)

/-- Unfolding of normalize_text on nonempty input. -/
theorem normalize_text_eq (text : List Char) (lex : List (List Char × List Char))
    (h : text ≠ []) :
    normalize_text text lex =
      pyStrip (joinSpace ((splitP isWsC (collapseWs (collapseCommas
        ((pyStrip (pyLower text)).map (fun c => if allowedChar c then c else ' '))))).map
        (expandToken lex))) := by
  unfold normalize_text
  rw [if_neg h]

/-- The output shape of normalize_text is a fixed point of normalize_text
once every joined element satisfies ElemOK. -/
theorem normalize_fixed_of_elems (ex : List (List Char)) (hex : ∀ e ∈ ex, ElemOK e) :
    normalize_text (pyStrip (joinSpace ex)) get_abbreviations = pyStrip (joinSpace ex) := by
  by_cases hxe : ex = []
  · rw [hxe]
    rfl
  · have hne : ∀ e ∈ ex, e ≠ [] := fun e he => (hex e he).1
    have hhead : headNot isWsC (joinSpace ex) = true :=
      joinSpace_headNot isWsC ex (fun e he => ⟨(hex e he).1, (hex e he).2.2.2.2.1⟩)
    have hlast : headNot isWsC (joinSpace ex).reverse = true :=
      joinSpace_lastNot isWsC ex (fun e he => ⟨(hex e he).1, (hex e he).2.2.2.2.2.1⟩)
    have hstrip : pyStrip (joinSpace ex) = joinSpace ex := pyStrip_eq_self _ hhead hlast
    rw [hstrip]
    have hygood : ∀ c ∈ joinSpace ex, goodChar c = true :=
      joinSpace_all (fun c => goodChar c = true) (by decide) ex (fun e he => (hex e he).2.1)
    have hyne : joinSpace ex ≠ [] := joinSpace_ne_nil ex hxe hne
    rw [normalize_text_eq _ _ hyne]
    have h1 : pyLower (joinSpace ex) = joinSpace ex :=
      map_id_on pyLowerChar _ (fun c hc => (goodChar_spec c (hygood c hc)).2.1)
    rw [h1, hstrip]
    have h2 : (joinSpace ex).map (fun c => if allowedChar c then c else ' ') = joinSpace ex := by
      refine map_id_on _ _ ?_
      intro c hc
      rw [if_pos (goodChar_spec c (hygood c hc)).1]
    rw [h2]
    have hnac : noAdjP isComma (joinSpace ex) = true :=
      joinSpace_noAdj_comma ex (fun e he => (hex e he).2.2.1)
    have h3 : collapseCommas (joinSpace ex) = joinSpace ex :=
      ccAux_id _ false hnac (by intro h; cases h)
    rw [h3]
    have hnaw : noAdjP isWsC (joinSpace ex) = true :=
      joinSpace_noAdj_ws ex (fun e he =>
        ⟨(hex e he).1, (hex e he).2.2.2.1, (hex e he).2.2.2.2.1, (hex e he).2.2.2.2.2.1⟩)
    have h4 : collapseWs (joinSpace ex) = joinSpace ex :=
      cwAux_id _ false hnaw (fun c hc hw => (goodChar_spec c (hygood c hc)).2.2 hw)
        (by intro h; cases h)
    rw [h4]
    have h5 : splitP isWsC (joinSpace ex) = ex.flatMap (splitP isWsC) :=
      splitP_joinSpace isWsC (by decide) ex
    rw [h5]
    have h6 : (ex.flatMap (splitP isWsC)).map (expandToken get_abbreviations) =
        ex.flatMap (splitP isWsC) := by
      refine map_id_on _ _ ?_
      intro u hu
      rw [List.mem_flatMap] at hu
      obtain ⟨e, he, hue⟩ := hu
      exact (hex e he).2.2.2.2.2.2.2.2 u hue
    rw [h6]
    have h7 : joinSpace (ex.flatMap (splitP isWsC)) = joinSpace ex :=
      joinSpace_flatMap_split ex (fun e he =>
        ⟨(hex e he).2.2.2.2.2.2.1, (hex e he).2.2.2.2.2.2.2.1⟩)
    rw [h7, hstrip]

/-- C6: normalization is idempotent over the abbreviation lexicon of
utils.get_abbreviations: applying normalize_text to its own output
changes nothing, for every input string. -/
theorem C6_normalize_idempotent (text : List Char) :
    normalize_text (normalize_text text get_abbreviations) get_abbreviations =
      normalize_text text get_abbreviations := by
  by_cases h0 : text = []
  · rw [h0]
    rfl
  · rw [normalize_text_eq text _ h0]
    refine normalize_fixed_of_elems _ ?_
    intro e he
    rw [List.mem_map] at he
    obtain ⟨w, hw, hwe⟩ := he
    rw [← hwe]
    exact elemOK_of_token text w hw

/-- Evidence that the embedding reproduces the Python pipeline on the
scenario input of the spec (address_parser behaviour checked against the
source patterns): the PIN entry resolves city, state and district, the
marker extractors fill house number and locality, and the landmark stops
at the first whitespace of the capture (the parser.py landmark pattern
terminates on commas and whitespace alike). -/
example :
    parse_address gazDelhi pinsDemo
      (some (str "H No 12, Sector 15, near City Hospital, 110001")) =
    { pincode := some (str "110001"), house_number := some (str "12"),
      landmark := some (str "City"), locality := some (str "Sector 15"),
      district := some (str "Central Delhi"), city := some (str "Delhi"),
      state := some (str "Delhi") } := by decide

example : parse_address gazDelhi pinsDemo none = emptyParsed := by decide

example : parse_address gazDelhi pinsDemo (some []) = emptyParsed := by decide

example :
    let r := parse_address gazDelhi pinsDemo (some (str "some unknown place"))
    r.city = none ∧ r.state = none ∧ r.pincode = none := by decide
